import Mathlib

/-!
# STM32 SDMMC variant of the MMCI host driver

Shallow embedding of `drivers/mmc/host/mmci_stm32_sdmmc.c`.

* Machine integers are natural numbers; a value stored in a `u32` object is
  reduced modulo `2 ^ 32` where the source can exceed that range.
* Hardware effects (register writes, delays, reset line, calls into the MMC
  core) are recorded in order as a list of `Event`s.
* Constants that the driver takes from headers other than the translated file
  (`mmci.h`, `linux/mmc/host.h`, `PAGE_SIZE`) are the fields of `mmci_h`; every
  function takes them as a parameter `K`.
* Answers of the environment (tuning exchange, status poll) are oracles.
-/

namespace Sdmmc

/-! ## Constants -/

/-- Constants used by the driver whose definitions live in other headers. -/
structure mmci_h where
  /-- `PAGE_SIZE`, the value of `SDMMC_LLI_BUF_LEN` -/
  PAGE_SIZE : Nat
  MMCI_STM32_IDMABNDT_SHIFT : Nat
  MMCI_STM32_IDMACTRLR : Nat
  MMCI_STM32_IDMAEN : Nat
  MMCI_STM32_IDMALLIEN : Nat
  MMCI_STM32_IDMABSIZER : Nat
  MMCI_STM32_IDMABASE0R : Nat
  MMCI_STM32_IDMALAR : Nat
  MMCI_STM32_IDMABAR : Nat
  MMCI_STM32_ABR : Nat
  MMCI_STM32_ULS : Nat
  MMCI_STM32_ULA : Nat
  MCI_STM32_CLK_CLKDIV_MSK : Nat
  MCI_STM32_CLK_WIDEBUS_4 : Nat
  MCI_STM32_CLK_WIDEBUS_8 : Nat
  MCI_STM32_CLK_HWFCEN : Nat
  MCI_STM32_CLK_DDR : Nat
  MCI_STM32_CLK_BUSSPEED : Nat
  MCI_STM32_CLK_SEL_MSK : Nat
  MCI_STM32_CLK_SELFBCK : Nat
  MCI_STM32_PWR_CYC : Nat
  MCI_PWR_OFF : Nat
  MCI_PWR_ON : Nat
  MCI_IRQENABLE : Nat
  MMCIMASK0 : Nat
  MMC_TIMING_UHS_SDR50 : Nat
  MMC_TIMING_UHS_SDR104 : Nat
  MMC_TIMING_UHS_DDR50 : Nat
  MMC_TIMING_MMC_DDR52 : Nat
  MMC_BUS_WIDTH_4 : Nat
  MMC_BUS_WIDTH_8 : Nat
  MMC_POWER_OFF : Nat
  MMC_POWER_ON : Nat
  deriving Repr, DecidableEq

/-- Kernel macro `BIT(n)`, `1UL << n`: the word with only bit `n` set. -/
def BIT (n : Nat) : Nat := 2 ^ n

/-- Kernel macro `GENMASK(h, l)`: the word with bits `l` to `h` inclusive set. -/
def GENMASK (h l : Nat) : Nat := 2 ^ (h + 1) - 2 ^ l

/-- Sample values of the header constants, laid out as for the STM32 SDMMC
variant with 4 KiB pages; used only for concrete evaluations. -/
def stm32_mmci_h : mmci_h where
  PAGE_SIZE := 4096
  MMCI_STM32_IDMABNDT_SHIFT := 5
  MMCI_STM32_IDMACTRLR := 0x050
  MMCI_STM32_IDMAEN := BIT 0
  MMCI_STM32_IDMALLIEN := BIT 1
  MMCI_STM32_IDMABSIZER := 0x054
  MMCI_STM32_IDMABASE0R := 0x058
  MMCI_STM32_IDMALAR := 0x064
  MMCI_STM32_IDMABAR := 0x068
  MMCI_STM32_ABR := BIT 29
  MMCI_STM32_ULS := BIT 30
  MMCI_STM32_ULA := BIT 31
  MCI_STM32_CLK_CLKDIV_MSK := GENMASK 9 0
  MCI_STM32_CLK_WIDEBUS_4 := BIT 14
  MCI_STM32_CLK_WIDEBUS_8 := BIT 15
  MCI_STM32_CLK_HWFCEN := BIT 17
  MCI_STM32_CLK_DDR := BIT 18
  MCI_STM32_CLK_BUSSPEED := BIT 19
  MCI_STM32_CLK_SEL_MSK := GENMASK 21 20
  MCI_STM32_CLK_SELFBCK := 2 <<< 20
  MCI_STM32_PWR_CYC := 0x02
  MCI_PWR_OFF := 0x00
  MCI_PWR_ON := 0x03
  MCI_IRQENABLE := 0xff
  MMCIMASK0 := 0x03c
  MMC_TIMING_UHS_SDR50 := 5
  MMC_TIMING_UHS_SDR104 := 6
  MMC_TIMING_UHS_DDR50 := 7
  MMC_TIMING_MMC_DDR52 := 8
  MMC_BUS_WIDTH_4 := 2
  MMC_BUS_WIDTH_8 := 3
  MMC_POWER_OFF := 0
  MMC_POWER_ON := 2

/-- `EINVAL` of errno. -/
def EINVAL : Int := 22

/-- `ENOMEM` of errno. -/
def ENOMEM : Int := 12

/-- Reduction of a value to an unsigned 32-bit object. -/
def u32 (x : Nat) : Nat := x % 2 ^ 32

/-- `~x` on an unsigned 32-bit word. -/
def not32 (x : Nat) : Nat := (2 ^ 32 - 1) ^^^ u32 x

/-! The delay block constants defined at the top of the translated file.  The
masks `DLYB_CFGR_SEL_MASK = GENMASK(3, 0)`, `DLYB_CFGR_UNIT_MASK = GENMASK(14, 8)`
and `DLYB_CFGR_LNG_MASK = GENMASK(27, 16)` appear below as the bit positions
given to `FIELD_PREP` and `FIELD_GET`. -/

def DLYB_CR : Nat := 0x0
def DLYB_CR_DEN : Nat := BIT 0
def DLYB_CR_SEN : Nat := BIT 1
def DLYB_CFGR : Nat := 0x4
def DLYB_CFGR_LNGF : Nat := BIT 31
def DLYB_NB_DELAY : Nat := 11
def DLYB_CFGR_SEL_MAX : Nat := DLYB_NB_DELAY + 1
def DLYB_CFGR_UNIT_MAX : Nat := 127

/-- `SDMMC_LLI_BUF_LEN` is `PAGE_SIZE`. -/
def SDMMC_LLI_BUF_LEN (K : mmci_h) : Nat := K.PAGE_SIZE

/-- `SDMMC_IDMA_BURST` is `BIT(MMCI_STM32_IDMABNDT_SHIFT)`. -/
def SDMMC_IDMA_BURST (K : mmci_h) : Nat := BIT K.MMCI_STM32_IDMABNDT_SHIFT

/-- `sizeof(u32)`. -/
def sizeof_u32 : Nat := 4

/-- `sizeof(struct sdmmc_lli_desc)`: three `u32` fields. -/
def sizeof_sdmmc_lli_desc : Nat := 3 * sizeof_u32

/-- Kernel macro `IS_ALIGNED(x, a)`, which is `((x) & ((a) - 1)) == 0`. -/
def IS_ALIGNED (x a : Nat) : Bool := (x &&& (a - 1)) == 0

/-- Kernel macro `FIELD_PREP` for the mask `GENMASK(h, l)`: the value is
shifted to the lowest bit of the mask, then masked. -/
def FIELD_PREP (h l val : Nat) : Nat := (val <<< l) &&& GENMASK h l

/-- Kernel macro `FIELD_GET` for the mask `GENMASK(h, l)`: the register is
masked, then shifted down by the lowest bit of the mask. -/
def FIELD_GET (h l reg : Nat) : Nat := (reg &&& GENMASK h l) >>> l

/-! ## Hardware events -/

/-- The two register windows the driver writes to. -/
inductive IoBase where
  | host
  | dlyb
  deriving Repr, DecidableEq

/-- One externally visible action of the driver. -/
inductive Event where
  | writel_relaxed (base : IoBase) (off val : Nat)
  | writel (base : IoBase) (off val : Nat)
  | dma_wmb
  | dma_map_sg (sg_len : Nat)
  | dma_unmap_sg (sg_len : Nat)
  | reset_control_assert
  | reset_control_deassert
  | udelay (usecs : Nat)
  | mdelay (msecs : Nat)
  | mmci_write_clkreg (clk : Nat)
  | mmci_write_pwrreg (pwr : Nat)
  | mmc_send_tuning (opcode : Nat)
  | readl_relaxed_poll_timeout (base : IoBase) (off sleep_us timeout_us : Nat)
  deriving Repr, DecidableEq

/-! ## Scatter list -/

/-- The fields of `struct scatterlist` the driver reads. -/
structure scatterlist where
  offset : Nat
  length : Nat
  dma_address : Nat
  dma_length : Nat
  deriving Repr, DecidableEq

/-- The fields of `struct mmc_data` the driver reads; `sg_len` is the number of
entries of `sg`. -/
structure mmc_data where
  sg : List scatterlist
  host_cookie : Int
  deriving Repr, DecidableEq

/-- `data->sg_len`. -/
def mmc_data.sg_len (data : mmc_data) : Nat := data.sg.length

/-! ## sdmmc_idma_validate_data -/

/-- The `for_each_sg(data->sg, sg, nr, i)` loop of `sdmmc_idma_validate_data`.
`data_sg` is the entry `data->sg` points to, the list is the iterator `sg`, `nr`
the iterations left.  The body tests `data->sg->offset` and `data->sg->length`;
the iterator only advances.  Result `true` when the loop returned `-EINVAL`. -/
def validate_loop (K : mmci_h) (data_sg : scatterlist) :
    List scatterlist → Nat → Bool
  | _, 0 => false
  | [], _ + 1 => false
  | _ :: sg, nr + 1 =>
    if !IS_ALIGNED data_sg.offset sizeof_u32 ||
        !IS_ALIGNED data_sg.length (SDMMC_IDMA_BURST K) then true
    else validate_loop K data_sg sg nr

/-- `sdmmc_idma_validate_data`.  `none` when the scatter list is empty: the
source dereferences `data->sg` there. -/
def sdmmc_idma_validate_data (K : mmci_h) (data : mmc_data) : Option Int :=
  match data.sg with
  | [] => none
  | data_sg :: _ =>
    if validate_loop K data_sg data.sg (data.sg_len - 1) then some (-EINVAL)
    else if !IS_ALIGNED data_sg.offset sizeof_u32 then some (-EINVAL)
    else some 0

/-! ### The alignment rules as the specification words them -/

/-- Interior segments require (offset mod 4 == 0) AND (length mod burst == 0). -/
def spec_interior_ok (burst : Nat) (s : scatterlist) : Bool :=
  s.offset % 4 == 0 && s.length % burst == 0

/-- The final segment requires only (offset mod 4 == 0). -/
def spec_final_ok (s : scatterlist) : Bool := s.offset % 4 == 0

/-- Every interior segment obeys the interior rule and the final segment the
final rule. -/
def spec_valid (burst : Nat) : List scatterlist → Bool
  | [] => true
  | [s] => spec_final_ok s
  | s :: t => spec_interior_ok burst s && spec_valid burst t

/-! ## Host state -/

/-- One entry of the hardware descriptor chain, `struct sdmmc_lli_desc`. -/
structure sdmmc_lli_desc where
  idmalar : Nat
  idmabase : Nat
  idmasize : Nat
  deriving Repr, DecidableEq

/-- The IDMA private data, `struct sdmmc_idma`.  `sg_cpu` is the content of the
descriptor buffer seen as an array of `sdmmc_lli_desc`. -/
structure sdmmc_idma where
  sg_dma : Nat
  sg_cpu : List sdmmc_lli_desc
  deriving Repr, DecidableEq

/-- The delay block state, `struct sdmmc_dlyb`; `base = 0` is the null pointer. -/
structure sdmmc_dlyb where
  base : Nat
  unit : Nat
  max : Nat
  deriving Repr, DecidableEq

/-- The fields of `struct mmc_ios` the driver reads. -/
structure mmc_ios where
  timing : Nat
  power_mode : Nat
  bus_width : Nat
  deriving Repr, DecidableEq

/-- The fields of `struct variant_data` the driver reads. -/
structure variant_data where
  dma_lli : Bool
  stm32_idmabsize_mask : Nat
  start_err : Nat
  deriving Repr, DecidableEq

/-- The fields of `struct mmci_host` and of its `struct mmc_host` the driver
reads or writes. -/
structure mmci_host where
  variant : variant_data
  ios : mmc_ios
  mclk : Nat
  cclk : Nat
  actual_clock : Nat
  clk_reg_add : Nat
  pwr_reg_add : Nat
  next_cookie : Int
  max_segs : Nat
  max_seg_size : Nat
  max_req_size : Nat
  dma_priv : Option sdmmc_idma
  variant_priv : Option sdmmc_dlyb
  data : Option mmc_data
  deriving Repr, DecidableEq

/-! ## Prepare, unprepare, setup -/

/-- `_sdmmc_idma_prep_data`; `n_elem` is what `dma_map_sg` returns. -/
def _sdmmc_idma_prep_data (data : mmc_data) (n_elem : Int) : Int × List Event :=
  let ev := [Event.dma_map_sg data.sg_len]
  if n_elem = 0 then (-EINVAL, ev) else (0, ev)

/-- `sdmmc_idma_prep_data`; `n_elem` is what `dma_map_sg` would return. -/
def sdmmc_idma_prep_data (host : mmci_host) (data : mmc_data) (next : Bool)
    (n_elem : Int) : Int × List Event :=
  if !next && data.host_cookie == host.next_cookie then (0, [])
  else _sdmmc_idma_prep_data data n_elem

/-- `sdmmc_idma_unprep_data`. -/
def sdmmc_idma_unprep_data (_host : mmci_host) (data : mmc_data) (_err : Int) :
    List Event :=
  [Event.dma_unmap_sg data.sg_len]

/-- `sdmmc_idma_setup`.  `kzalloc_ok` tells whether `devm_kzalloc` succeeded;
`coherent` is the device address `dmam_alloc_coherent` returned, `none` on
failure.  The allocated buffer of `SDMMC_LLI_BUF_LEN` bytes holds
`SDMMC_LLI_BUF_LEN / 12` whole descriptors. -/
def sdmmc_idma_setup (K : mmci_h) (host : mmci_host) (kzalloc_ok : Bool)
    (coherent : Option Nat) : Int × mmci_host :=
  if !kzalloc_ok then (-ENOMEM, host)
  else
    let host := { host with dma_priv := some ⟨0, []⟩ }
    if host.variant.dma_lli then
      match coherent with
      | none => (-ENOMEM, host)
      | some sg_dma =>
        let idma : sdmmc_idma :=
          ⟨sg_dma, List.replicate (SDMMC_LLI_BUF_LEN K / sizeof_sdmmc_lli_desc) ⟨0, 0, 0⟩⟩
        (0, { host with
              dma_priv := some idma
              max_segs := SDMMC_LLI_BUF_LEN K / sizeof_sdmmc_lli_desc
              max_seg_size := host.variant.stm32_idmabsize_mask })
    else
      (0, { host with max_segs := 1, max_seg_size := host.max_req_size })

/-! ## sdmmc_idma_start -/

/-- The three assignments to `desc[i]` in the body of the chain loop of
`sdmmc_idma_start`, for the segment `sg`: the entry they leave at index `i`. -/
def chain_entry (K : mmci_h) (i : Nat) (sg : scatterlist) : sdmmc_lli_desc :=
  let lar := u32 ((i + 1) * sizeof_sdmmc_lli_desc)
  let lar := lar ||| u32 (K.MMCI_STM32_ULA ||| K.MMCI_STM32_ULS ||| K.MMCI_STM32_ABR)
  ⟨lar, u32 sg.dma_address, u32 sg.dma_length⟩

/-- The `for_each_sg(data->sg, sg, data->sg_len, i)` loop of `sdmmc_idma_start`:
the list is the iterator `sg`, `i` the index, `desc` the descriptor array.
`none` when `desc[i]` lies outside the array. -/
def idma_start_loop (K : mmci_h) :
    List scatterlist → Nat → List sdmmc_lli_desc → Option (List sdmmc_lli_desc)
  | [], _, desc => some desc
  | sg :: rest, i, desc =>
    if i < desc.length then
      idma_start_loop K rest (i + 1) (desc.set i (chain_entry K i sg))
    else none

/-- The statement `desc[n].idmalar &= ~MMCI_STM32_ULA`. -/
def clear_ula (K : mmci_h) (desc : List sdmmc_lli_desc) (n : Nat) :
    Option (List sdmmc_lli_desc) :=
  match desc[n]? with
  | none => none
  | some d => some (desc.set n { d with idmalar := d.idmalar &&& not32 K.MMCI_STM32_ULA })

/-- `sdmmc_idma_start`: the return value, the descriptor array afterwards and
the events.  `none` when the source dereferences a missing object or indexes
outside the descriptor array. -/
def sdmmc_idma_start (K : mmci_h) (host : mmci_host) :
    Option (Int × List sdmmc_lli_desc × List Event) :=
  match host.dma_priv, host.data with
  | some idma, some data =>
    if !host.variant.dma_lli || data.sg_len == 1 then
      match data.sg with
      | [] => none
      | sg0 :: _ =>
        some (0, idma.sg_cpu,
          [Event.writel_relaxed .host K.MMCI_STM32_IDMABASE0R (u32 sg0.dma_address),
           Event.writel_relaxed .host K.MMCI_STM32_IDMACTRLR (u32 K.MMCI_STM32_IDMAEN)])
    else
      match idma_start_loop K data.sg 0 idma.sg_cpu with
      | none => none
      | some desc =>
        if data.sg_len = 0 then none
        else
          match clear_ula K desc (data.sg_len - 1) with
          | none => none
          | some desc =>
            match desc[0]? with
            | none => none
            | some d0 =>
              some (0, desc,
                [Event.dma_wmb,
                 Event.writel_relaxed .host K.MMCI_STM32_IDMABAR (u32 idma.sg_dma),
                 Event.writel_relaxed .host K.MMCI_STM32_IDMALAR d0.idmalar,
                 Event.writel_relaxed .host K.MMCI_STM32_IDMABASE0R d0.idmabase,
                 Event.writel_relaxed .host K.MMCI_STM32_IDMABSIZER d0.idmasize,
                 Event.writel_relaxed .host K.MMCI_STM32_IDMACTRLR
                   (u32 (K.MMCI_STM32_IDMAEN ||| K.MMCI_STM32_IDMALLIEN))])
  | _, _ => none

/-- `sdmmc_idma_finalize`. -/
def sdmmc_idma_finalize (K : mmci_h) : List Event :=
  [Event.writel_relaxed .host K.MMCI_STM32_IDMACTRLR 0]

/-! ## Clock register -/

/-- The local `ddr` of `mmci_sdmmc_set_clkreg`. -/
def clkreg_ddr (K : mmci_h) (host : mmci_host) : Nat :=
  if host.ios.timing = K.MMC_TIMING_MMC_DDR52 ∨ host.ios.timing = K.MMC_TIMING_UHS_DDR50 then
    K.MCI_STM32_CLK_DDR
  else 0

/-- Kernel macro `DIV_ROUND_UP(n, d)`, which is `((n) + (d) - 1) / (d)`, on
`unsigned int` operands; `d` is already reduced to 32 bits.  `none` on division
by zero. -/
def DIV_ROUND_UP (n d : Nat) : Option Nat :=
  if d = 0 then none else some (u32 (n + d - 1) / d)

/-- Unsigned 32-bit division `n / d`; `none` on division by zero. -/
def udiv (n d : Nat) : Option Nat :=
  if d = 0 then none else some (n / d)

/-- The branch of `mmci_sdmmc_set_clkreg` that computes a divider (the inner
`else`): the values of the local `clk` and of `host->cclk` after it. -/
def clkreg_div_branch (K : mmci_h) (host : mmci_host) (desired : Nat) : Option (Nat × Nat) :=
  match DIV_ROUND_UP host.mclk (u32 (2 * desired)) with
  | none => none
  | some clk =>
    let clk := if clk > K.MCI_STM32_CLK_CLKDIV_MSK then K.MCI_STM32_CLK_CLKDIV_MSK else clk
    match udiv host.mclk (u32 (2 * clk)) with
    | none => none
    | some cclk => some (clk, cclk)

/-- The `if (desired) ... else ...` statement of `mmci_sdmmc_set_clkreg`: the
values of the local `clk` and of `host->cclk` after it. -/
def clkreg_divider (K : mmci_h) (host : mmci_host) (desired : Nat) : Option (Nat × Nat) :=
  if desired ≠ 0 then
    if desired ≥ host.mclk ∧ clkreg_ddr K host = 0 then
      some (0, host.mclk)
    else
      clkreg_div_branch K host desired
  else
    let clk := K.MCI_STM32_CLK_CLKDIV_MSK
    match udiv host.mclk (u32 (2 * clk)) with
    | none => none
    | some cclk => some (clk, cclk)

/-- The flags OR-ed into `clk` after the divider is known, up to the call of
`mmci_write_clkreg`. -/
def clkreg_flags (K : mmci_h) (host : mmci_host) (clk : Nat) : Nat :=
  let clk := if host.ios.bus_width = K.MMC_BUS_WIDTH_4 then clk ||| K.MCI_STM32_CLK_WIDEBUS_4 else clk
  let clk := if host.ios.bus_width = K.MMC_BUS_WIDTH_8 then clk ||| K.MCI_STM32_CLK_WIDEBUS_8 else clk
  let clk := clk ||| K.MCI_STM32_CLK_HWFCEN
  let clk := clk ||| host.clk_reg_add
  let clk := clk ||| clkreg_ddr K host
  if host.ios.timing ≥ K.MMC_TIMING_UHS_SDR50 then
    let clk := clk ||| K.MCI_STM32_CLK_BUSSPEED
    if host.ios.timing = K.MMC_TIMING_UHS_SDR104 then
      (clk &&& not32 K.MCI_STM32_CLK_SEL_MSK) ||| K.MCI_STM32_CLK_SELFBCK
    else clk
  else clk

/-- `mmci_sdmmc_set_clkreg`: the host afterwards and the events; `none` when
the source divides by zero. -/
def mmci_sdmmc_set_clkreg (K : mmci_h) (host : mmci_host) (desired : Nat) :
    Option (mmci_host × List Event) :=
  match clkreg_divider K host desired with
  | none => none
  | some (clk, cclk) =>
    let actual := if host.ios.power_mode = K.MMC_POWER_ON then cclk else 0
    some ({ host with cclk := cclk, actual_clock := actual },
          [Event.mmci_write_clkreg (u32 (clkreg_flags K host clk))])

/-! ## Power register -/

/-- `sdmmc_dlyb_input_ck`. -/
def sdmmc_dlyb_input_ck (dlyb : Option sdmmc_dlyb) : List Event :=
  match dlyb with
  | none => []
  | some d => if d.base = 0 then [] else [Event.writel_relaxed .dlyb DLYB_CR 0]

/-- `mmci_sdmmc_set_pwrreg`; the argument `pwr` is overwritten on entry. -/
def mmci_sdmmc_set_pwrreg (K : mmci_h) (host : mmci_host) (_pwr : Nat) : List Event :=
  let pwr := host.pwr_reg_add
  sdmmc_dlyb_input_ck host.variant_priv ++
  if host.ios.power_mode = K.MMC_POWER_OFF then
    [Event.reset_control_assert, Event.udelay 2, Event.reset_control_deassert,
     Event.mmci_write_pwrreg (u32 (K.MCI_STM32_PWR_CYC ||| pwr))]
  else if host.ios.power_mode = K.MMC_POWER_ON then
    [Event.writel .host K.MMCIMASK0 (u32 (K.MCI_IRQENABLE ||| host.variant.start_err)),
     Event.mmci_write_pwrreg (u32 (K.MCI_PWR_OFF ||| pwr)),
     Event.mdelay 1,
     Event.mmci_write_pwrreg (u32 (K.MCI_PWR_ON ||| pwr))]
  else []

/-! ## Delay block -/

/-- `sdmmc_dlyb_set_cfgr`. -/
def sdmmc_dlyb_set_cfgr (unit phase : Nat) (sampler : Bool) : List Event :=
  let cfgr := FIELD_PREP 14 8 unit ||| FIELD_PREP 3 0 phase
  [Event.writel_relaxed .dlyb DLYB_CR (DLYB_CR_SEN ||| DLYB_CR_DEN),
   Event.writel_relaxed .dlyb DLYB_CFGR cfgr] ++
  if !sampler then [Event.writel_relaxed .dlyb DLYB_CR DLYB_CR_DEN] else []

/-- Modelled from the spec: `__fls` is a kernel bit helper defined outside the
translated file; the specification describes it as the position of the highest
set bit, `floor(log2(length))`. -/
def __fls (x : Nat) : Nat := Nat.log2 x

/-- The `for (i = 0; i <= DLYB_CFGR_UNIT_MAX; i++)` loop of
`sdmmc_dlyb_lng_tuning`.  `hw i` is what the status poll gives while unit `i`
is programmed: the return value of `readl_relaxed_poll_timeout` and the last
value read from `DLYB_CFGR`.  `n` counts the iterations left.  The result is
`some (i, lng)` when the loop left through `break`, `none` when it ran out,
with the events. -/
def lng_tuning_loop (hw : Nat → Int × Nat) : Nat → Nat → Option (Nat × Nat) × List Event
  | 0, _ => (none, [])
  | n + 1, i =>
    let ev := sdmmc_dlyb_set_cfgr i DLYB_CFGR_SEL_MAX true ++
      [Event.readl_relaxed_poll_timeout .dlyb DLYB_CFGR 1 1000]
    if (hw i).1 ≠ 0 then
      let r := lng_tuning_loop hw n (i + 1)
      (r.1, ev ++ r.2)
    else
      let lng := FIELD_GET 27 16 (hw i).2
      if lng < BIT DLYB_NB_DELAY ∧ lng > 0 then (some (i, lng), ev)
      else
        let r := lng_tuning_loop hw n (i + 1)
        (r.1, ev ++ r.2)

/-- `sdmmc_dlyb_lng_tuning`: return value, delay block state afterwards, events. -/
def sdmmc_dlyb_lng_tuning (dlyb : sdmmc_dlyb) (hw : Nat → Int × Nat) :
    Int × sdmmc_dlyb × List Event :=
  match lng_tuning_loop hw (DLYB_CFGR_UNIT_MAX + 1) 0 with
  | (none, ev) => (-EINVAL, dlyb, ev)
  | (some (i, lng), ev) => (0, { dlyb with unit := i, max := __fls lng }, ev)

/-- The locals of `sdmmc_dlyb_phase_tuning` during the sweep, with the events
so far. -/
structure sweep where
  cur_len : Nat
  max_len : Nat
  end_of_len : Nat
  trace : List Event
  deriving Repr, DecidableEq

/-- One iteration of the `for (phase = 0; phase <= dlyb->max; phase++)` loop.
`tune phase` is what `mmc_send_tuning` returns while `phase` is programmed. -/
def phase_step (dlyb : sdmmc_dlyb) (opcode : Nat) (tune : Nat → Int) (s : sweep)
    (phase : Nat) : sweep :=
  let ev := sdmmc_dlyb_set_cfgr dlyb.unit phase false ++ [Event.mmc_send_tuning opcode]
  if tune phase ≠ 0 then
    { s with cur_len := 0, trace := s.trace ++ ev }
  else
    let cur_len := s.cur_len + 1
    if cur_len > s.max_len then
      { cur_len := cur_len, max_len := cur_len, end_of_len := phase, trace := s.trace ++ ev }
    else
      { s with cur_len := cur_len, trace := s.trace ++ ev }

/-- The whole sweep loop of `sdmmc_dlyb_phase_tuning`.  The `int` locals are
natural numbers: they stay within `0 .. dlyb->max + 1`. -/
def phase_sweep (dlyb : sdmmc_dlyb) (opcode : Nat) (tune : Nat → Int) : sweep :=
  (List.range (dlyb.max + 1)).foldl (phase_step dlyb opcode tune) ⟨0, 0, 0, []⟩

/-- `sdmmc_dlyb_phase_tuning`: return value and events. -/
def sdmmc_dlyb_phase_tuning (dlyb : sdmmc_dlyb) (opcode : Nat) (tune : Nat → Int) :
    Int × List Event :=
  let s := phase_sweep dlyb opcode tune
  if s.max_len = 0 then (-EINVAL, s.trace)
  else
    let phase := s.end_of_len - s.max_len / 2
    (0, s.trace ++ sdmmc_dlyb_set_cfgr dlyb.unit phase false)

/-- `sdmmc_execute_tuning`: return value, delay block state afterwards, events. -/
def sdmmc_execute_tuning (host : mmci_host) (opcode : Nat) (hw : Nat → Int × Nat)
    (tune : Nat → Int) : Int × Option sdmmc_dlyb × List Event :=
  match host.variant_priv with
  | none => (-EINVAL, none, [])
  | some dlyb =>
    if dlyb.base = 0 then (-EINVAL, some dlyb, [])
    else
      match sdmmc_dlyb_lng_tuning dlyb hw with
      | (ret, dlyb1, ev) =>
        if ret ≠ 0 then (-EINVAL, some dlyb1, ev)
        else
          let r := sdmmc_dlyb_phase_tuning dlyb1 opcode tune
          (r.1, some dlyb1, ev ++ r.2)

/-! ## Sample inputs -/

/-- A transfer of three mapped segments, the last of odd length. -/
def sample_data : mmc_data :=
  ⟨[⟨0, 64, 0x10000000, 64⟩, ⟨4, 32, 0x10002004, 32⟩, ⟨8, 7, 0x10004008, 7⟩], 1⟩

/-- A descriptor array of four entries, all zero, at device address 0x20000000. -/
def sample_idma : sdmmc_idma := ⟨0x20000000, List.replicate 4 ⟨0, 0, 0⟩⟩

/-- A host in power-on state on a 48 MHz source clock, 4-bit bus, legacy
timing, with a linked-list variant, the sample descriptor array and the sample
transfer pending. -/
def sample_host : mmci_host where
  variant := ⟨true, 0x1ffffe0, 0⟩
  ios := ⟨0, 2, 2⟩
  mclk := 48000000
  cclk := 0
  actual_clock := 0
  clk_reg_add := 0
  pwr_reg_add := 0
  next_cookie := 0
  max_segs := 4
  max_seg_size := 0x1ffffe0
  max_req_size := 0
  dma_priv := some sample_idma
  variant_priv := some ⟨1, 0, 0⟩
  data := some sample_data

/-! ## Delay block: auxiliary notions for the statements -/

/-- The events of one iteration of the sweep loop of `sdmmc_dlyb_phase_tuning`
at `phase`: the delay block is programmed, then one tuning exchange runs. -/
def sweep_events (dlyb : sdmmc_dlyb) (opcode : Nat) (phase : Nat) : List Event :=
  sdmmc_dlyb_set_cfgr dlyb.unit phase false ++ [Event.mmc_send_tuning opcode]

/-- The sweep loop of `sdmmc_dlyb_phase_tuning` cut after the phases below `n`. -/
def sweep_upto (dlyb : sdmmc_dlyb) (opcode : Nat) (tune : Nat → Int) (n : Nat) : sweep :=
  (List.range n).foldl (phase_step dlyb opcode tune) ⟨0, 0, 0, []⟩

/-- Every phase from `a` to `b` passes the tuning exchange. -/
def run_ok (tune : Nat → Int) (a b : Nat) : Prop :=
  ∀ p, a ≤ p → p ≤ b → tune p = 0

/-- Specification of the best streak: among the phases `0..max`, the phases
`e - len + 1 .. e` form a run of consecutive succeeding phases, no run is
longer, and every run ending before `e` is shorter. -/
def longest_run (tune : Nat → Int) (max len e : Nat) : Prop :=
  0 < len ∧ e ≤ max ∧ len ≤ e + 1 ∧ run_ok tune (e + 1 - len) e ∧
  (∀ a b, a ≤ b → b ≤ max → run_ok tune a b → b - a + 1 ≤ len) ∧
  (∀ a b, a ≤ b → b < e → run_ok tune a b → b - a + 1 < len)

/-- What holds of the locals of the sweep loop after the phases below `n`. -/
structure sweep_inv (dlyb : sdmmc_dlyb) (opcode : Nat) (tune : Nat → Int) (n : Nat)
    (s : sweep) : Prop where
  cur_le : s.cur_len ≤ n
  cur_run : ∀ p, n - s.cur_len ≤ p → p < n → tune p = 0
  cur_stop : s.cur_len < n → tune (n - s.cur_len - 1) ≠ 0
  cur_le_max : s.cur_len ≤ s.max_len
  end_lt : 0 < s.max_len → s.end_of_len < n
  len_le : s.max_len ≤ s.end_of_len + 1
  best_run : 0 < s.max_len → run_ok tune (s.end_of_len + 1 - s.max_len) s.end_of_len
  maximal : ∀ a b, a ≤ b → b < n → run_ok tune a b → b - a + 1 ≤ s.max_len
  earliest : ∀ a b, a ≤ b → b < s.end_of_len → run_ok tune a b → b - a + 1 < s.max_len
  trace_eq : s.trace = (List.range n).flatMap (sweep_events dlyb opcode)

/-- The length the delay block reports while unit `u` is programmed: the `LNG`
field of the value read from `DLYB_CFGR`. -/
def measured_length (hw : Nat → Int × Nat) (u : Nat) : Nat := FIELD_GET 27 16 (hw u).2

/-- Unit `u` yields a successful status poll with a measured length `L`,
`0 < L < 2^11`. -/
def unit_accepted (hw : Nat → Int × Nat) (u : Nat) : Prop :=
  (hw u).1 = 0 ∧ 0 < measured_length hw u ∧ measured_length hw u < 2 ^ 11

instance (hw : Nat → Int × Nat) (u : Nat) : Decidable (unit_accepted hw u) := by
  unfold unit_accepted; infer_instance

/-- Simulated hardware: length 512 at unit 5, a poll timeout at every other unit. -/
def hw_512_at_unit_5 (u : Nat) : Int × Nat :=
  if u = 5 then (0, DLYB_CFGR_LNGF ||| (512 <<< 16)) else (-110, 0)

/-- Tuning oracle: the phases 3..7 succeed, every other phase fails with `-EIO`. -/
def tune_3_to_7 (p : Nat) : Int := if 3 ≤ p ∧ p ≤ 7 then 0 else -5

/-- Tuning oracle: every phase fails with `-EIO`. -/
def tune_none (_p : Nat) : Int := -5

/-- The events of one iteration of the loop of `sdmmc_dlyb_lng_tuning` at unit
`u`: the delay block is programmed in sampler mode, then the status is polled. -/
def lng_events (u : Nat) : List Event :=
  sdmmc_dlyb_set_cfgr u DLYB_CFGR_SEL_MAX true ++
    [Event.readl_relaxed_poll_timeout .dlyb DLYB_CFGR 1 1000]

/-- Simulated hardware: the status poll times out at every unit. -/
def hw_all_timeout (_u : Nat) : Int × Nat := (-110, 0)

/-! ## Clock divider: auxiliary notions for the statements -/

/-- The number `q` is the ceiling of `n / d`: the least `q` with `n ≤ q * d`. -/
def is_ceil_div (n d q : Nat) : Prop := n ≤ q * d ∧ ∀ k, n ≤ k * d → q ≤ k

/-- DDR is enabled: the bus timing is one of the two DDR modes. -/
def ddr_enabled (K : mmci_h) (host : mmci_host) : Prop :=
  host.ios.timing = K.MMC_TIMING_MMC_DDR52 ∨ host.ios.timing = K.MMC_TIMING_UHS_DDR50

instance (K : mmci_h) (host : mmci_host) : Decidable (ddr_enabled K host) := by
  unfold ddr_enabled; infer_instance

/-- The sample host switched to the DDR52 timing. -/
def sample_host_ddr : mmci_host := { sample_host with ios := ⟨8, 2, 2⟩ }

/-- The sample host in DDR52 timing with a stopped source clock. -/
def sample_host_ddr_mclk0 : mmci_host := { sample_host_ddr with mclk := 0 }

/-- The sample host with a source clock of 4 GHz. -/
def sample_host_4ghz : mmci_host := { sample_host with mclk := 4000000000 }

/-- A transfer of a single mapped segment. -/
def sample_data_single : mmc_data := ⟨[⟨0, 512, 0x10000000, 512⟩], 1⟩

/-- The sample host with the single-segment transfer pending. -/
def sample_host_single : mmci_host := { sample_host with data := some sample_data_single }

/-- The sample host on a variant without linked lists, as `sdmmc_idma_setup`
leaves it: no descriptor array, one segment at most. -/
def sample_host_no_lli : mmci_host :=
  { sample_host with
    variant := ⟨false, 0x1ffffe0, 0⟩
    dma_priv := some ⟨0, []⟩
    max_segs := 1
    data := some sample_data_single }

/-- The sample host in the intermediate power-up mode (`MMC_POWER_UP`). -/
def sample_host_power_up : mmci_host := { sample_host with ios := ⟨0, 1, 2⟩ }

/-- The sample host in power-off mode. -/
def sample_host_power_off : mmci_host := { sample_host with ios := ⟨0, 0, 2⟩ }

/-- The value of the local `phase` of `sdmmc_dlyb_phase_tuning` after the
statement `phase = end_of_len - max_len / 2`. -/
def chosen_phase (dlyb : sdmmc_dlyb) (opcode : Nat) (tune : Nat → Int) : Nat :=
  (phase_sweep dlyb opcode tune).end_of_len - (phase_sweep dlyb opcode tune).max_len / 2

/-- Tuning oracle: the phases 3 and 4 succeed, every other phase fails with `-EIO`. -/
def tune_3_to_4 (p : Nat) : Int := if 3 ≤ p ∧ p ≤ 4 then 0 else -5

/-! # Theorems -/

/-! ## Alignment helpers -/

theorem IS_ALIGNED_four (x : Nat) : IS_ALIGNED x sizeof_u32 = true ↔ x % 4 = 0 := by
  have h := Nat.and_pow_two_sub_one_eq_mod x 2
  simp only [IS_ALIGNED, sizeof_u32, beq_iff_eq]
  norm_num at h ⊢
  rw [h]

theorem IS_ALIGNED_burst (K : mmci_h) (x : Nat) :
    IS_ALIGNED x (SDMMC_IDMA_BURST K) = true ↔ x % SDMMC_IDMA_BURST K = 0 := by
  simp only [IS_ALIGNED, SDMMC_IDMA_BURST, BIT, beq_iff_eq]
  rw [Nat.and_pow_two_sub_one_eq_mod]

/-- The loop of the validator only ever looks at the first entry: when that
entry passes the interior test the loop completes, whatever the iterator holds. -/
theorem validate_loop_first_ok (K : mmci_h) (first : scatterlist)
    (ho : first.offset % 4 = 0) (hl : first.length % SDMMC_IDMA_BURST K = 0)
    (sg : List scatterlist) (nr : Nat) : validate_loop K first sg nr = false := by
  induction sg generalizing nr with
  | nil => cases nr <;> simp [validate_loop]
  | cons a t ih =>
    cases nr with
    | zero => simp [validate_loop]
    | succ n =>
      have h1 := (IS_ALIGNED_four first.offset).2 ho
      have h2 := (IS_ALIGNED_burst K first.length).2 hl
      simp [validate_loop, h1, h2, ih]

/-! ## C3 -/

/-- C3: on a non-empty scatter list in which every interior segment has
offset % 4 = 0 and length % burst = 0 and the final segment has offset % 4 = 0
(its length arbitrary), `sdmmc_idma_validate_data` returns 0. -/
theorem validate_data_accepts_aligned (K : mmci_h) (data : mmc_data)
    (hne : data.sg ≠ [])
    (hvalid : spec_valid (SDMMC_IDMA_BURST K) data.sg = true) :
    sdmmc_idma_validate_data K data = some 0 := by
  obtain ⟨sg, cookie⟩ := data
  cases sg with
  | nil => exact absurd rfl hne
  | cons first rest =>
    cases rest with
    | nil =>
      have ho : first.offset % 4 = 0 := by simpa [spec_valid, spec_final_ok] using hvalid
      have h1 := (IS_ALIGNED_four first.offset).2 ho
      simp [sdmmc_idma_validate_data, mmc_data.sg_len, validate_loop, h1]
    | cons second rest =>
      have hi : first.offset % 4 = 0 ∧ first.length % SDMMC_IDMA_BURST K = 0 := by
        have := hvalid
        simp only [spec_valid, spec_interior_ok, Bool.and_eq_true, beq_iff_eq] at this
        exact this.1
      have h1 := (IS_ALIGNED_four first.offset).2 hi.1
      have hloop := validate_loop_first_ok K first hi.1 hi.2 (first :: second :: rest)
        ((first :: second :: rest).length - 1)
      simp only [sdmmc_idma_validate_data, mmc_data.sg_len, hloop, h1]
      simp

/-- C3 at a concrete input: three segments, the last of odd length. -/
theorem validate_data_accepts_aligned_witness :
    sdmmc_idma_validate_data stm32_mmci_h
      ⟨[⟨0, 64, 0, 0⟩, ⟨4, 32, 0, 0⟩, ⟨8, 7, 0, 0⟩], 0⟩ = some 0 :=
  validate_data_accepts_aligned stm32_mmci_h
    ⟨[⟨0, 64, 0, 0⟩, ⟨4, 32, 0, 0⟩, ⟨8, 7, 0, 0⟩], 0⟩ (by decide) (by decide)

/-! ## C2 -/

/-- C2: the validator misses violations past the first segment.  For the two
lists below the specification demands the alignment error (the final segment of
the first list has offset 2; the second, interior, segment of the other list
has length 10 and offset 2) and `sdmmc_idma_validate_data` returns 0. -/
theorem validate_data_misses_later_segments :
    (spec_valid (SDMMC_IDMA_BURST stm32_mmci_h) [⟨0, 32, 0, 0⟩, ⟨2, 10, 0, 0⟩] = false ∧
      sdmmc_idma_validate_data stm32_mmci_h ⟨[⟨0, 32, 0, 0⟩, ⟨2, 10, 0, 0⟩], 0⟩ = some 0) ∧
    (spec_valid (SDMMC_IDMA_BURST stm32_mmci_h)
        [⟨0, 32, 0, 0⟩, ⟨2, 10, 0, 0⟩, ⟨0, 32, 0, 0⟩] = false ∧
      sdmmc_idma_validate_data stm32_mmci_h
        ⟨[⟨0, 32, 0, 0⟩, ⟨2, 10, 0, 0⟩, ⟨0, 32, 0, 0⟩], 0⟩ = some 0) := by
  decide

/-! ## Descriptor chain -/

theorem u32_of_lt {x : Nat} (h : x < 2 ^ 32) : u32 x = x := Nat.mod_eq_of_lt h

/-- Clearing a flag that was OR-ed into a word whose other bits avoid it gives
the word back. -/
theorem or_and_not32 (x A : Nat) (hx : x < 2 ^ 32) (hA : A < 2 ^ 32) (h : x &&& A = 0) :
    (x ||| A) &&& not32 A = x := by
  apply Nat.eq_of_testBit_eq
  intro i
  have hb : (x.testBit i && A.testBit i) = false := by
    rw [← Nat.testBit_and, h, Nat.zero_testBit]
  simp only [not32, u32_of_lt hA, Nat.testBit_and, Nat.testBit_or, Nat.testBit_xor,
    Nat.testBit_two_pow_sub_one]
  by_cases hi : i < 32
  · cases hxi : x.testBit i <;> cases hAi : A.testBit i <;> simp_all
  · have hxi : x.testBit i = false :=
      Nat.testBit_lt_two_pow (lt_of_lt_of_le hx (Nat.pow_le_pow_right (by decide) (by omega)))
    have hAi : A.testBit i = false :=
      Nat.testBit_lt_two_pow (lt_of_lt_of_le hA (Nat.pow_le_pow_right (by decide) (by omega)))
    simp [hxi, hAi, hi]

/-- A word masked with the complement of a flag has the flag clear. -/
theorem and_not32_and_self (x A : Nat) (hA : A < 2 ^ 32) : (x &&& not32 A) &&& A = 0 := by
  apply Nat.eq_of_testBit_eq
  intro i
  simp only [not32, u32_of_lt hA, Nat.testBit_and, Nat.testBit_xor,
    Nat.testBit_two_pow_sub_one, Nat.zero_testBit]
  cases x.testBit i <;> cases hAi : A.testBit i <;> simp
  by_contra hi
  have : A.testBit i = false :=
    Nat.testBit_lt_two_pow (lt_of_lt_of_le hA (Nat.pow_le_pow_right (by decide) (by omega)))
  simp [this] at hAi

/-- The chain loop, started at index `i` with room for all remaining segments,
completes, keeps the length of the array, rewrites exactly the indices
`i .. i + sgs.length - 1` and puts there the entries of the segments. -/
theorem idma_start_loop_spec (K : mmci_h) (sgs : List scatterlist) :
    ∀ (i : Nat) (desc : List sdmmc_lli_desc), i + sgs.length ≤ desc.length →
    ∃ out, idma_start_loop K sgs i desc = some out ∧ out.length = desc.length ∧
      (∀ j, j < i ∨ i + sgs.length ≤ j → out[j]? = desc[j]?) ∧
      (∀ k s, sgs[k]? = some s → out[i + k]? = some (chain_entry K (i + k) s)) := by
  induction sgs with
  | nil =>
    intro i desc _
    exact ⟨desc, by simp [idma_start_loop], rfl, fun _ _ => rfl, by simp⟩
  | cons sg rest ih =>
    intro i desc h
    simp only [List.length_cons] at h
    have hi : i < desc.length := by omega
    obtain ⟨out, hout, hlen, hkeep, hnew⟩ :=
      ih (i + 1) (desc.set i (chain_entry K i sg)) (by simp; omega)
    refine ⟨out, ?_, ?_, ?_, ?_⟩
    · simp only [idma_start_loop, hi, if_true]
      exact hout
    · simpa using hlen
    · intro j hj
      have hj2 : j < i + 1 ∨ i + 1 + rest.length ≤ j := by
        simp only [List.length_cons] at hj
        omega
      rw [hkeep j hj2, List.getElem?_set_ne]
      simp only [List.length_cons] at hj
      omega
    · intro k s hk
      cases k with
      | zero =>
        simp only [List.getElem?_cons_zero, Option.some.injEq] at hk
        subst hk
        rw [Nat.add_zero, hkeep i (Or.inl (Nat.lt_succ_self i)), List.getElem?_set_self hi]
      | succ k =>
        simp only [List.getElem?_cons_succ] at hk
        have := hnew k s hk
        have e : i + (k + 1) = i + 1 + k := by omega
        rw [e]
        exact this

/-- Clearing the flag `A` in a word built as `x | (A | S | B)` leaves
`x | (S | B)` when neither `x` nor `S | B` touches `A`. -/
theorem clear_flag (x A S B : Nat) (hx : x < 2 ^ 32) (hA : A < 2 ^ 32) (hS : S < 2 ^ 32)
    (hB : B < 2 ^ 32) (hxA : x &&& A = 0) (hSB : (S ||| B) &&& A = 0) :
    (x ||| (A ||| S ||| B)) &&& not32 A = x ||| (S ||| B) := by
  have e : x ||| (A ||| S ||| B) = (x ||| (S ||| B)) ||| A := by
    apply Nat.eq_of_testBit_eq
    intro i
    simp only [Nat.testBit_or]
    cases x.testBit i <;> cases A.testBit i <;> cases S.testBit i <;> cases B.testBit i <;> rfl
  have hz : (x ||| (S ||| B)) &&& A = 0 := by
    apply Nat.eq_of_testBit_eq
    intro i
    have h1 : (x.testBit i && A.testBit i) = false := by
      rw [← Nat.testBit_and, hxA, Nat.zero_testBit]
    have h2 : ((S.testBit i || B.testBit i) && A.testBit i) = false := by
      rw [← Nat.testBit_or, ← Nat.testBit_and, hSB, Nat.zero_testBit]
    simp only [Nat.testBit_and, Nat.testBit_or, Nat.zero_testBit]
    cases hxi : x.testBit i <;> cases hAi : A.testBit i <;> cases hSi : S.testBit i <;>
      cases hBi : B.testBit i <;> simp_all
  rw [e]
  exact or_and_not32 _ A (Nat.or_lt_two_pow hx (Nat.or_lt_two_pow hS hB)) hA hz

/-- A word built as `x | (A | S | B)` has the flag `A` set. -/
theorem flag_set (x A S B : Nat) : (x ||| (A ||| S ||| B)) &&& A = A := by
  apply Nat.eq_of_testBit_eq
  intro i
  simp only [Nat.testBit_and, Nat.testBit_or]
  cases x.testBit i <;> cases A.testBit i <;> cases S.testBit i <;> cases B.testBit i <;> rfl

/-! ## C1 -/

/-- C1: on a variant with linked lists, for a mapped scatter list of N segments
with 2 <= N <= capacity, `sdmmc_idma_start` succeeds and rewrites exactly the
first N descriptors: descriptor i holds the device address and the DMA length
of segment i; its `idmalar` is (i+1)*12 OR-ed with ULA|ULS|ABR when i < N-1 and
N*12 OR-ed with ULS|ABR, ULA cleared, when i = N-1; so the linking flag is
clear in descriptor i exactly when i = N-1.  The constants are three flags
that fit 32 bits, ULA being non-zero, apart from ULS|ABR and not reached by the
offset N*12; addresses and lengths of the mapped segments fit 32 bits. -/
theorem idma_start_builds_chain (K : mmci_h) (host : mmci_host) (idma : sdmmc_idma)
    (data : mmc_data)
    (hlli : host.variant.dma_lli = true)
    (hpriv : host.dma_priv = some idma) (hdata : host.data = some data)
    (h2 : 2 ≤ data.sg_len) (hcap : data.sg_len ≤ idma.sg_cpu.length)
    (hbuf : idma.sg_cpu.length * sizeof_sdmmc_lli_desc < 2 ^ 32)
    (hsg : ∀ s ∈ data.sg, s.dma_address < 2 ^ 32 ∧ s.dma_length < 2 ^ 32)
    (hULA0 : K.MMCI_STM32_ULA ≠ 0) (hULA : K.MMCI_STM32_ULA < 2 ^ 32)
    (hULS : K.MMCI_STM32_ULS < 2 ^ 32) (hABR : K.MMCI_STM32_ABR < 2 ^ 32)
    (hflags : (K.MMCI_STM32_ULS ||| K.MMCI_STM32_ABR) &&& K.MMCI_STM32_ULA = 0)
    (hoff : (data.sg_len * 12) &&& K.MMCI_STM32_ULA = 0) :
    ∃ desc ev, sdmmc_idma_start K host = some (0, desc, ev) ∧
      desc.length = idma.sg_cpu.length ∧
      (∀ j, data.sg_len ≤ j → desc[j]? = idma.sg_cpu[j]?) ∧
      (∀ i s, data.sg[i]? = some s → ∃ d, desc[i]? = some d ∧
        d.idmabase = s.dma_address ∧ d.idmasize = s.dma_length ∧
        (i + 1 < data.sg_len → d.idmalar =
          ((i + 1) * 12) ||| (K.MMCI_STM32_ULA ||| K.MMCI_STM32_ULS ||| K.MMCI_STM32_ABR)) ∧
        (i + 1 = data.sg_len → d.idmalar =
          (data.sg_len * 12) ||| (K.MMCI_STM32_ULS ||| K.MMCI_STM32_ABR)) ∧
        (d.idmalar &&& K.MMCI_STM32_ULA = 0 ↔ i + 1 = data.sg_len)) := by
  have hN : data.sg.length = data.sg_len := rfl
  have hsz : sizeof_sdmmc_lli_desc = 12 := rfl
  have hF : u32 (K.MMCI_STM32_ULA ||| K.MMCI_STM32_ULS ||| K.MMCI_STM32_ABR) =
      K.MMCI_STM32_ULA ||| K.MMCI_STM32_ULS ||| K.MMCI_STM32_ABR :=
    u32_of_lt (Nat.or_lt_two_pow (Nat.or_lt_two_pow hULA hULS) hABR)
  have hoffs : ∀ i, i < data.sg_len → u32 ((i + 1) * 12) = (i + 1) * 12 := by
    intro i hi
    apply u32_of_lt
    rw [hsz] at hbuf
    omega
  obtain ⟨out, hout, hlen, hkeep, hnew⟩ :=
    idma_start_loop_spec K data.sg 0 idma.sg_cpu (by rw [hN]; omega)
  have hlast_lt : data.sg_len - 1 < data.sg.length := by rw [hN]; omega
  obtain ⟨last, hlast⟩ : ∃ s, data.sg[data.sg_len - 1]? = some s :=
    ⟨_, List.getElem?_eq_getElem hlast_lt⟩
  have hout_last : out[data.sg_len - 1]? = some (chain_entry K (data.sg_len - 1) last) := by
    have := hnew _ _ hlast
    simpa using this
  let dlast : sdmmc_lli_desc :=
    { chain_entry K (data.sg_len - 1) last with
      idmalar := (chain_entry K (data.sg_len - 1) last).idmalar &&& not32 K.MMCI_STM32_ULA }
  have hclear : clear_ula K out (data.sg_len - 1) = some (out.set (data.sg_len - 1) dlast) := by
    simp [clear_ula, hout_last, dlast]
  have h0lt : 0 < (out.set (data.sg_len - 1) dlast).length := by
    rw [List.length_set, hlen]; omega
  have hne1 : (data.sg_len == 1) = false := by
    simp only [beq_eq_false_iff_ne]; omega
  have hne0 : data.sg_len ≠ 0 := by omega
  refine ⟨out.set (data.sg_len - 1) dlast,
    [Event.dma_wmb,
     Event.writel_relaxed .host K.MMCI_STM32_IDMABAR (u32 idma.sg_dma),
     Event.writel_relaxed .host K.MMCI_STM32_IDMALAR
       ((out.set (data.sg_len - 1) dlast)[0]).idmalar,
     Event.writel_relaxed .host K.MMCI_STM32_IDMABASE0R
       ((out.set (data.sg_len - 1) dlast)[0]).idmabase,
     Event.writel_relaxed .host K.MMCI_STM32_IDMABSIZER
       ((out.set (data.sg_len - 1) dlast)[0]).idmasize,
     Event.writel_relaxed .host K.MMCI_STM32_IDMACTRLR
       (u32 (K.MMCI_STM32_IDMAEN ||| K.MMCI_STM32_IDMALLIEN))], ?_, ?_, ?_, ?_⟩
  · simp only [sdmmc_idma_start, hpriv, hdata, hlli, hne1, hout, hclear, hne0,
      List.getElem?_eq_getElem h0lt]
    simp
  · rw [List.length_set, hlen]
  · intro j hj
    rw [List.getElem?_set_ne (by omega), hkeep j (Or.inr (by rw [hN]; omega))]
  · intro i s hs
    have hi : i < data.sg_len := by
      rw [← hN]
      exact (List.getElem?_eq_some.1 hs).1
    have hbnd : s.dma_address < 2 ^ 32 ∧ s.dma_length < 2 ^ 32 :=
      hsg s (List.getElem?_mem hs)
    have hout_i : out[i]? = some (chain_entry K i s) := by
      have := hnew _ _ hs
      simpa using this
    by_cases hil : i + 1 = data.sg_len
    · have hidx : data.sg_len - 1 = i := by omega
      have hsl : s = last := by
        rw [hidx] at hlast
        rw [hs] at hlast
        exact Option.some.inj hlast
      subst hsl
      have hval : (chain_entry K (data.sg_len - 1) s).idmalar &&& not32 K.MMCI_STM32_ULA =
          (data.sg_len * 12) ||| (K.MMCI_STM32_ULS ||| K.MMCI_STM32_ABR) := by
        have e1 : data.sg_len - 1 + 1 = data.sg_len := by omega
        simp only [chain_entry, hsz, e1, hF]
        have e2 : u32 (data.sg_len * 12) = data.sg_len * 12 := by
          have := hoffs i hi
          rw [hil] at this
          exact this
        rw [e2]
        refine clear_flag _ _ _ _ ?_ hULA hULS hABR hoff hflags
        rw [← e2]
        exact Nat.mod_lt _ (by decide)
      refine ⟨dlast, ?_, ?_, ?_, ?_, ?_, ?_⟩
      · rw [← hidx]
        exact List.getElem?_set_self (by rw [hlen]; omega)
      · simp only [chain_entry]
        exact u32_of_lt hbnd.1
      · simp only [chain_entry]
        exact u32_of_lt hbnd.2
      · intro h; omega
      · intro _
        exact hval
      · constructor
        · intro _; exact hil
        · intro _
          exact and_not32_and_self _ _ hULA
    · have hlt : i + 1 < data.sg_len := by omega
      have hlar : (chain_entry K i s).idmalar =
          ((i + 1) * 12) ||| (K.MMCI_STM32_ULA ||| K.MMCI_STM32_ULS ||| K.MMCI_STM32_ABR) := by
        simp only [chain_entry, hsz, hF, hoffs i hi]
      refine ⟨chain_entry K i s, ?_, ?_, ?_, ?_, ?_, ?_⟩
      · rw [List.getElem?_set_ne (by omega)]
        exact hout_i
      · simp only [chain_entry]
        exact u32_of_lt hbnd.1
      · simp only [chain_entry]
        exact u32_of_lt hbnd.2
      · intro _; exact hlar
      · intro h; omega
      · constructor
        · intro h
          rw [hlar, flag_set] at h
          exact absurd h hULA0
        · intro h; omega

/-- C1 at a concrete input: three segments in a four-entry descriptor array. -/
theorem idma_start_builds_chain_witness :
    ∃ desc ev, sdmmc_idma_start stm32_mmci_h sample_host = some (0, desc, ev) ∧
      desc.length = 4 ∧ desc[3]? = some ⟨0, 0, 0⟩ := by
  obtain ⟨desc, ev, h, hl, hk, _⟩ :=
    idma_start_builds_chain stm32_mmci_h sample_host sample_idma sample_data
      (by decide) rfl rfl (by decide) (by decide) (by decide) (by decide) (by decide)
      (by decide) (by decide) (by decide) (by decide) (by decide)
  exact ⟨desc, ev, h, hl, hk 3 (by decide)⟩

/-- The chain `sdmmc_idma_start` builds for the sample transfer, evaluated. -/
theorem idma_start_sample_eval :
    sdmmc_idma_start stm32_mmci_h sample_host = some (0,
      [⟨12 ||| (BIT 31 ||| BIT 30 ||| BIT 29), 0x10000000, 64⟩,
       ⟨24 ||| (BIT 31 ||| BIT 30 ||| BIT 29), 0x10002004, 32⟩,
       ⟨36 ||| (BIT 30 ||| BIT 29), 0x10004008, 7⟩,
       ⟨0, 0, 0⟩],
      [Event.dma_wmb,
       Event.writel_relaxed .host 0x068 0x20000000,
       Event.writel_relaxed .host 0x064 (12 ||| (BIT 31 ||| BIT 30 ||| BIT 29)),
       Event.writel_relaxed .host 0x058 0x10000000,
       Event.writel_relaxed .host 0x054 64,
       Event.writel_relaxed .host 0x050 3]) := by
  decide

/-! ## Phase sweep -/

theorem sweep_upto_succ (dlyb : sdmmc_dlyb) (opcode : Nat) (tune : Nat → Int) (n : Nat) :
    sweep_upto dlyb opcode tune (n + 1) =
      phase_step dlyb opcode tune (sweep_upto dlyb opcode tune n) n := by
  simp [sweep_upto, List.range_succ, List.foldl_append]

theorem phase_sweep_eq (dlyb : sdmmc_dlyb) (opcode : Nat) (tune : Nat → Int) :
    phase_sweep dlyb opcode tune = sweep_upto dlyb opcode tune (dlyb.max + 1) := rfl


/-- The invariant holds before the first iteration. -/
theorem sweep_inv_zero (dlyb : sdmmc_dlyb) (opcode : Nat) (tune : Nat → Int) :
    sweep_inv dlyb opcode tune 0 (sweep_upto dlyb opcode tune 0) where
  cur_le := Nat.le_refl 0
  cur_run := fun p _ hp => absurd hp (Nat.not_lt_zero p)
  cur_stop := fun h => absurd h (Nat.lt_irrefl 0)
  cur_le_max := Nat.le_refl 0
  end_lt := fun h => absurd h (Nat.lt_irrefl 0)
  len_le := Nat.zero_le _
  best_run := fun h => absurd h (Nat.lt_irrefl 0)
  maximal := fun _ b _ hb _ => absurd hb (Nat.not_lt_zero b)
  earliest := fun _ b _ hb _ => absurd hb (Nat.not_lt_zero b)
  trace_eq := rfl

/-- One iteration of the sweep loop keeps the invariant. -/
theorem sweep_inv_step (dlyb : sdmmc_dlyb) (opcode : Nat) (tune : Nat → Int) (n : Nat)
    (s : sweep) (h : sweep_inv dlyb opcode tune n s) :
    sweep_inv dlyb opcode tune (n + 1) (phase_step dlyb opcode tune s n) := by
  have htr : ∀ t : List Event, t = s.trace ++ sweep_events dlyb opcode n →
      t = (List.range (n + 1)).flatMap (sweep_events dlyb opcode) := by
    intro t ht
    rw [ht, h.trace_eq, List.range_succ, List.flatMap_append]
    simp
  -- a run that ends at phase n is no longer than the running streak
  have hnew : tune n = 0 → ∀ a, a ≤ n → run_ok tune a n → n - a + 1 ≤ s.cur_len + 1 := by
    intro _ a _ hrun
    by_contra hlt
    have hc : s.cur_len < n := by omega
    exact h.cur_stop hc (hrun _ (by omega) (by omega))
  by_cases ht : tune n = 0
  · by_cases hm : s.cur_len + 1 > s.max_len
    · have e : phase_step dlyb opcode tune s n =
          ⟨s.cur_len + 1, s.cur_len + 1, n, s.trace ++ sweep_events dlyb opcode n⟩ := by
        simp [phase_step, ht, hm, sweep_events]
      rw [e]
      have hc := h.cur_le
      have hrun : ∀ p, n + 1 - (s.cur_len + 1) ≤ p → p < n + 1 → tune p = 0 := by
        intro p hp1 hp2
        by_cases hpn : p = n
        · rw [hpn]; exact ht
        · exact h.cur_run p (by omega) (by omega)
      refine ⟨by simp only; omega, hrun, ?_, Nat.le_refl _, fun _ => Nat.lt_succ_self n,
        by simp only; omega, ?_, ?_, ?_, htr _ rfl⟩
      · intro hlt
        simp only at hlt ⊢
        have := h.cur_stop (by omega)
        have e2 : n + 1 - (s.cur_len + 1) - 1 = n - s.cur_len - 1 := by omega
        rw [e2]; exact this
      · intro _ p hp1 hp2
        exact hrun p hp1 (by simp only at hp2; omega)
      · intro a b hab hb hrun2
        simp only
        by_cases hbn : b = n
        · subst hbn; exact hnew ht a hab hrun2
        · have := h.maximal a b hab (by omega) hrun2
          omega
      · intro a b hab hb hrun2
        simp only at hb ⊢
        have := h.maximal a b hab hb hrun2
        omega
    · have e : phase_step dlyb opcode tune s n =
          ⟨s.cur_len + 1, s.max_len, s.end_of_len, s.trace ++ sweep_events dlyb opcode n⟩ := by
        simp [phase_step, ht, hm, sweep_events]
      rw [e]
      have hc := h.cur_le
      refine ⟨by simp only; omega, ?_, ?_, by simp only; omega,
        fun h0 => Nat.lt_succ_of_lt (h.end_lt h0), h.len_le, h.best_run, ?_, h.earliest,
        htr _ rfl⟩
      · intro p hp1 hp2
        simp only at hp1
        by_cases hpn : p = n
        · rw [hpn]; exact ht
        · exact h.cur_run p (by omega) (by omega)
      · intro hlt
        simp only at hlt ⊢
        have := h.cur_stop (by omega)
        have e2 : n + 1 - (s.cur_len + 1) - 1 = n - s.cur_len - 1 := by omega
        rw [e2]; exact this
      · intro a b hab hb hrun2
        simp only
        by_cases hbn : b = n
        · subst hbn
          have := hnew ht a hab hrun2
          omega
        · exact h.maximal a b hab (by omega) hrun2
  · have e : phase_step dlyb opcode tune s n =
        ⟨0, s.max_len, s.end_of_len, s.trace ++ sweep_events dlyb opcode n⟩ := by
      simp [phase_step, ht, sweep_events]
    rw [e]
    refine ⟨Nat.zero_le _, ?_, ?_, Nat.zero_le _,
      fun h0 => Nat.lt_succ_of_lt (h.end_lt h0), h.len_le, h.best_run, ?_, h.earliest,
      htr _ rfl⟩
    · intro p hp1 hp2
      simp only at hp1
      omega
    · intro _
      simpa using ht
    · intro a b hab hb hrun2
      simp only
      by_cases hbn : b = n
      · subst hbn
        exact absurd (hrun2 b hab (Nat.le_refl b)) ht
      · exact h.maximal a b hab (by omega) hrun2

/-- The invariant holds after any number of iterations of the sweep loop. -/
theorem sweep_inv_upto (dlyb : sdmmc_dlyb) (opcode : Nat) (tune : Nat → Int) (n : Nat) :
    sweep_inv dlyb opcode tune n (sweep_upto dlyb opcode tune n) := by
  induction n with
  | zero => exact sweep_inv_zero dlyb opcode tune
  | succ n ih =>
    rw [sweep_upto_succ]
    exact sweep_inv_step dlyb opcode tune n _ ih

/-- After the whole sweep no streak was found exactly when every phase failed. -/
theorem sweep_max_len_zero_iff (dlyb : sdmmc_dlyb) (opcode : Nat) (tune : Nat → Int) :
    (phase_sweep dlyb opcode tune).max_len = 0 ↔ ∀ p, p ≤ dlyb.max → tune p ≠ 0 := by
  have h := sweep_inv_upto dlyb opcode tune (dlyb.max + 1)
  rw [← phase_sweep_eq] at h
  constructor
  · intro h0 p hp hz
    have := h.maximal p p (Nat.le_refl p) (by omega)
      (fun q hq1 hq2 => by have : q = p := by omega
                           rw [this]; exact hz)
    omega
  · intro hall
    by_contra hne
    have hpos : 0 < (phase_sweep dlyb opcode tune).max_len := Nat.pos_of_ne_zero hne
    have hlt := h.end_lt hpos
    have hrun := h.best_run hpos
    have hl := h.len_le
    exact hall _ (by omega) (hrun _ (by omega) (Nat.le_refl _))

/-- After a sweep in which some phase succeeded, the locals `max_len` and
`end_of_len` describe the best streak. -/
theorem sweep_longest_run (dlyb : sdmmc_dlyb) (opcode : Nat) (tune : Nat → Int)
    (hpos : (phase_sweep dlyb opcode tune).max_len ≠ 0) :
    longest_run tune dlyb.max (phase_sweep dlyb opcode tune).max_len
      (phase_sweep dlyb opcode tune).end_of_len := by
  have h := sweep_inv_upto dlyb opcode tune (dlyb.max + 1)
  rw [← phase_sweep_eq] at h
  have hp : 0 < (phase_sweep dlyb opcode tune).max_len := Nat.pos_of_ne_zero hpos
  have hlt := h.end_lt hp
  exact ⟨hp, by omega, h.len_le, h.best_run hp,
    fun a b hab hb hrun => h.maximal a b hab (by omega) hrun, h.earliest⟩

/-- The best streak is determined by its specification. -/
theorem longest_run_unique (tune : Nat → Int) (max l e l2 e2 : Nat)
    (h : longest_run tune max l e) (h2 : longest_run tune max l2 e2) : l = l2 ∧ e = e2 := by
  obtain ⟨hp, he, hl, hrun, hmax, hfirst⟩ := h
  obtain ⟨hp2, he2, hl2, hrun2, hmax2, hfirst2⟩ := h2
  have a1 := hmax2 (e + 1 - l) e (by omega) he hrun
  have a2 := hmax (e2 + 1 - l2) e2 (by omega) he2 hrun2
  have hll : l = l2 := by omega
  refine ⟨hll, ?_⟩
  by_contra hne
  rcases Nat.lt_or_gt_of_ne hne with hlt | hgt
  · have := hfirst2 (e + 1 - l) e (by omega) hlt hrun
    omega
  · have := hfirst (e2 + 1 - l2) e2 (by omega) hgt hrun2
    omega

/-! ## C4 -/

/-- C4: when at least one phase of 0..max passes the tuning exchange,
`sdmmc_dlyb_phase_tuning` returns 0 and, after the sweep, programs the delay
block once more with phase `end_of_len - max_len / 2`, where `max_len` is the
length of the longest run of consecutive succeeding phases in 0..max and
`end_of_len` the last phase of that run (the first such run when several have
that length); the subtraction does not go below zero.  With exactly the phases
3..7 succeeding, `max_len = 5`, `end_of_len = 7` and the phase programmed is 5. -/
theorem phase_tuning_picks_midpoint :
    (∀ (dlyb : sdmmc_dlyb) (opcode : Nat) (tune : Nat → Int),
      (∃ p, p ≤ dlyb.max ∧ tune p = 0) →
      longest_run tune dlyb.max (phase_sweep dlyb opcode tune).max_len
        (phase_sweep dlyb opcode tune).end_of_len ∧
      (phase_sweep dlyb opcode tune).max_len / 2 ≤ (phase_sweep dlyb opcode tune).end_of_len ∧
      sdmmc_dlyb_phase_tuning dlyb opcode tune =
        (0, (List.range (dlyb.max + 1)).flatMap (sweep_events dlyb opcode) ++
          sdmmc_dlyb_set_cfgr dlyb.unit
            ((phase_sweep dlyb opcode tune).end_of_len -
              (phase_sweep dlyb opcode tune).max_len / 2) false)) ∧
    (∀ (dlyb : sdmmc_dlyb) (opcode : Nat) (tune : Nat → Int),
      7 ≤ dlyb.max → (∀ p, tune p = 0 ↔ 3 ≤ p ∧ p ≤ 7) →
      (phase_sweep dlyb opcode tune).max_len = 5 ∧
      (phase_sweep dlyb opcode tune).end_of_len = 7 ∧
      sdmmc_dlyb_phase_tuning dlyb opcode tune =
        (0, (List.range (dlyb.max + 1)).flatMap (sweep_events dlyb opcode) ++
          sdmmc_dlyb_set_cfgr dlyb.unit 5 false)) := by
  have general : ∀ (dlyb : sdmmc_dlyb) (opcode : Nat) (tune : Nat → Int),
      (∃ p, p ≤ dlyb.max ∧ tune p = 0) →
      longest_run tune dlyb.max (phase_sweep dlyb opcode tune).max_len
        (phase_sweep dlyb opcode tune).end_of_len ∧
      (phase_sweep dlyb opcode tune).max_len / 2 ≤ (phase_sweep dlyb opcode tune).end_of_len ∧
      sdmmc_dlyb_phase_tuning dlyb opcode tune =
        (0, (List.range (dlyb.max + 1)).flatMap (sweep_events dlyb opcode) ++
          sdmmc_dlyb_set_cfgr dlyb.unit
            ((phase_sweep dlyb opcode tune).end_of_len -
              (phase_sweep dlyb opcode tune).max_len / 2) false) := by
    intro dlyb opcode tune ⟨p, hp, hz⟩
    have hne : (phase_sweep dlyb opcode tune).max_len ≠ 0 := by
      intro h0
      exact (sweep_max_len_zero_iff dlyb opcode tune).1 h0 p hp hz
    have hrun := sweep_longest_run dlyb opcode tune hne
    have htr : (phase_sweep dlyb opcode tune).trace =
        (List.range (dlyb.max + 1)).flatMap (sweep_events dlyb opcode) := by
      rw [phase_sweep_eq]
      exact (sweep_inv_upto dlyb opcode tune (dlyb.max + 1)).trace_eq
    refine ⟨hrun, ?_, ?_⟩
    · have := hrun.2.2.1
      omega
    · simp only [sdmmc_dlyb_phase_tuning, hne, if_false, htr]
  refine ⟨general, ?_⟩
  intro dlyb opcode tune h7 htune
  obtain ⟨hrun, _, hret⟩ := general dlyb opcode tune ⟨3, by omega, (htune 3).2 (by omega)⟩
  obtain ⟨hp, he, hl, hok, hmax, _⟩ := hrun
  have h5 := hmax 3 7 (by omega) h7 (fun p h1 h2 => (htune p).2 ⟨h1, h2⟩)
  have hhi := (htune _).1 (hok (phase_sweep dlyb opcode tune).end_of_len (by omega)
    (Nat.le_refl _))
  have hlo := (htune _).1 (hok ((phase_sweep dlyb opcode tune).end_of_len + 1 -
    (phase_sweep dlyb opcode tune).max_len) (Nat.le_refl _) (by omega))
  have hlen : (phase_sweep dlyb opcode tune).max_len = 5 := by omega
  have hend : (phase_sweep dlyb opcode tune).end_of_len = 7 := by omega
  refine ⟨hlen, hend, ?_⟩
  rw [hret, hlen, hend]

/-- C4 at a concrete input: unit 3, max 10, the phases 3..7 succeeding. -/
theorem phase_tuning_picks_midpoint_witness :
    (∃ p, p ≤ 10 ∧ tune_3_to_7 p = 0) ∧
    sdmmc_dlyb_phase_tuning ⟨1, 3, 10⟩ 19 tune_3_to_7 =
      (0, (List.range 11).flatMap (sweep_events ⟨1, 3, 10⟩ 19) ++
        sdmmc_dlyb_set_cfgr 3 5 false) ∧
    longest_run tune_3_to_7 10 5 7 := by
  have hex : ∃ p, p ≤ (⟨1, 3, 10⟩ : sdmmc_dlyb).max ∧ tune_3_to_7 p = 0 :=
    ⟨3, by decide, by decide⟩
  have hiff : ∀ p, tune_3_to_7 p = 0 ↔ 3 ≤ p ∧ p ≤ 7 := by
    intro p
    unfold tune_3_to_7
    split <;> simp_all
  obtain ⟨h1, _, _⟩ := phase_tuning_picks_midpoint.1 ⟨1, 3, 10⟩ 19 tune_3_to_7 hex
  obtain ⟨h5, h7, hret⟩ := phase_tuning_picks_midpoint.2 ⟨1, 3, 10⟩ 19 tune_3_to_7
    (by decide) hiff
  rw [h5, h7] at h1
  exact ⟨hex, hret, h1⟩

/-! ## C7 -/

/-- C7: when the tuning exchange fails at every phase of 0..max,
`sdmmc_dlyb_phase_tuning` returns `-EINVAL` and its events are exactly those of
the sweep: for each phase 0, 1, .., max in this order one programming of the
delay block followed by one tuning exchange, and nothing after the last one.
Conversely a non-zero return value means that every phase failed. -/
theorem phase_tuning_all_fail (dlyb : sdmmc_dlyb) (opcode : Nat) (tune : Nat → Int) :
    ((∀ p, p ≤ dlyb.max → tune p ≠ 0) →
      sdmmc_dlyb_phase_tuning dlyb opcode tune =
        (-EINVAL, (List.range (dlyb.max + 1)).flatMap
          (fun phase => sdmmc_dlyb_set_cfgr dlyb.unit phase false ++
            [Event.mmc_send_tuning opcode]))) ∧
    ((sdmmc_dlyb_phase_tuning dlyb opcode tune).1 ≠ 0 → ∀ p, p ≤ dlyb.max → tune p ≠ 0) := by
  have htr : (phase_sweep dlyb opcode tune).trace =
      (List.range (dlyb.max + 1)).flatMap (sweep_events dlyb opcode) := by
    rw [phase_sweep_eq]
    exact (sweep_inv_upto dlyb opcode tune (dlyb.max + 1)).trace_eq
  constructor
  · intro hall
    have h0 := (sweep_max_len_zero_iff dlyb opcode tune).2 hall
    simp only [sdmmc_dlyb_phase_tuning, h0, if_true, htr]
    rfl
  · intro hret
    apply (sweep_max_len_zero_iff dlyb opcode tune).1
    by_contra hne
    apply hret
    simp only [sdmmc_dlyb_phase_tuning, hne, if_false]

/-- C7 at a concrete input: unit 3, max 2, every phase failing; the events are
written out. -/
theorem phase_tuning_all_fail_witness :
    sdmmc_dlyb_phase_tuning ⟨1, 3, 2⟩ 19 tune_none =
      (-22,
       [Event.writel_relaxed .dlyb 0 3, Event.writel_relaxed .dlyb 4 0x300,
        Event.writel_relaxed .dlyb 0 1, Event.mmc_send_tuning 19,
        Event.writel_relaxed .dlyb 0 3, Event.writel_relaxed .dlyb 4 0x301,
        Event.writel_relaxed .dlyb 0 1, Event.mmc_send_tuning 19,
        Event.writel_relaxed .dlyb 0 3, Event.writel_relaxed .dlyb 4 0x302,
        Event.writel_relaxed .dlyb 0 1, Event.mmc_send_tuning 19]) := by
  have h := (phase_tuning_all_fail ⟨1, 3, 2⟩ 19 tune_none).1
    (fun _ _ => by unfold tune_none; decide)
  rw [h]
  decide

/-! ## Length tuning -/

/-- The test the loop of `sdmmc_dlyb_lng_tuning` makes before `break`. -/
theorem lng_in_range_iff (hw : Nat → Int × Nat) (u : Nat) :
    ((hw u).1 = 0 ∧ FIELD_GET 27 16 (hw u).2 < BIT DLYB_NB_DELAY ∧
      FIELD_GET 27 16 (hw u).2 > 0) ↔ unit_accepted hw u := by
  simp only [unit_accepted, measured_length, BIT, DLYB_NB_DELAY]
  constructor
  · rintro ⟨h1, h2, h3⟩; exact ⟨h1, h3, h2⟩
  · rintro ⟨h1, h2, h3⟩; exact ⟨h1, h3, h2⟩

/-- One iteration of the length loop at a unit that is not accepted: the loop
goes on with the next unit. -/
theorem lng_tuning_loop_skip (hw : Nat → Int × Nat) (n i : Nat)
    (h : ¬ unit_accepted hw i) :
    lng_tuning_loop hw (n + 1) i =
      ((lng_tuning_loop hw n (i + 1)).1, lng_events i ++ (lng_tuning_loop hw n (i + 1)).2) := by
  rw [← lng_in_range_iff] at h
  by_cases hr : (hw i).1 = 0
  · have hr2 : ¬ (FIELD_GET 27 16 (hw i).2 < BIT DLYB_NB_DELAY ∧
        FIELD_GET 27 16 (hw i).2 > 0) := fun hc => h ⟨hr, hc⟩
    simp [lng_tuning_loop, hr, hr2, lng_events]
  · simp [lng_tuning_loop, hr, lng_events]

/-- One iteration of the length loop at an accepted unit: the loop stops. -/
theorem lng_tuning_loop_stop (hw : Nat → Int × Nat) (n i : Nat)
    (h : unit_accepted hw i) :
    lng_tuning_loop hw (n + 1) i = (some (i, measured_length hw i), lng_events i) := by
  rw [← lng_in_range_iff] at h
  obtain ⟨hr, h2⟩ := h
  simp [lng_tuning_loop, hr, h2, lng_events, measured_length]

/-- What the length loop returns when started at unit `i` with `n` iterations
left: the first accepted unit of `i .. i + n - 1` with its measured length, or
nothing when there is none; the events are those of the units tried. -/
theorem lng_tuning_loop_spec (hw : Nat → Int × Nat) : ∀ (n i : Nat),
    (∀ u L, (lng_tuning_loop hw n i).1 = some (u, L) →
      i ≤ u ∧ u < i + n ∧ unit_accepted hw u ∧ L = measured_length hw u ∧
      (∀ v, i ≤ v → v < u → ¬ unit_accepted hw v) ∧
      (lng_tuning_loop hw n i).2 = (List.range' i (u + 1 - i)).flatMap lng_events) ∧
    ((lng_tuning_loop hw n i).1 = none →
      (∀ u, i ≤ u → u < i + n → ¬ unit_accepted hw u) ∧
      (lng_tuning_loop hw n i).2 = (List.range' i n).flatMap lng_events) := by
  intro n
  induction n with
  | zero =>
    intro i
    refine ⟨fun u L h => by simp [lng_tuning_loop] at h, fun _ => ⟨fun u h1 h2 => by omega, ?_⟩⟩
    simp [lng_tuning_loop]
  | succ n ih =>
    intro i
    by_cases hacc : unit_accepted hw i
    · rw [lng_tuning_loop_stop hw n i hacc]
      refine ⟨fun u L h => ?_, fun h => by simp at h⟩
      simp only [Option.some.injEq, Prod.mk.injEq] at h
      obtain ⟨hu, hL⟩ := h
      subst hu
      refine ⟨Nat.le_refl _, by omega, hacc, hL.symm, fun v h1 h2 => by omega, ?_⟩
      have e : i + 1 - i = 1 := by omega
      simp [e, List.range']
    · rw [lng_tuning_loop_skip hw n i hacc]
      obtain ⟨ih1, ih2⟩ := ih (i + 1)
      refine ⟨fun u L h => ?_, fun h => ?_⟩
      · obtain ⟨h1, h2, h3, h4, h5, h6⟩ := ih1 u L h
        refine ⟨by omega, by omega, h3, h4, fun v hv1 hv2 => ?_, ?_⟩
        · by_cases hvi : v = i
          · rw [hvi]; exact hacc
          · exact h5 v (by omega) hv2
        · have e : u + 1 - i = (u + 1 - (i + 1)) + 1 := by omega
          simp only [e, List.range', List.flatMap_cons, h6]
      · obtain ⟨h1, h2⟩ := ih2 h
        refine ⟨fun u hu1 hu2 => ?_, ?_⟩
        · by_cases hui : u = i
          · rw [hui]; exact hacc
          · exact h1 u (by omega) (by omega)
        · simp only [List.range', List.flatMap_cons, h2]

/-- The two outcomes of `sdmmc_dlyb_lng_tuning`: either some unit of 0..127 is
accepted, and the first such unit is stored with the position of the highest
set bit of its length, after the units up to it were tried in order; or no
unit is accepted, the state is untouched and all 128 units were tried. -/
theorem lng_tuning_result (dlyb : sdmmc_dlyb) (hw : Nat → Int × Nat) :
    (∃ u, u ≤ 127 ∧ unit_accepted hw u ∧ (∀ v, v < u → ¬ unit_accepted hw v) ∧
      sdmmc_dlyb_lng_tuning dlyb hw =
        (0, { dlyb with unit := u, max := __fls (measured_length hw u) },
          (List.range (u + 1)).flatMap lng_events)) ∨
    ((∀ u, u ≤ 127 → ¬ unit_accepted hw u) ∧
      sdmmc_dlyb_lng_tuning dlyb hw =
        (-EINVAL, dlyb, (List.range 128).flatMap lng_events)) := by
  obtain ⟨h1, h2⟩ := lng_tuning_loop_spec hw (DLYB_CFGR_UNIT_MAX + 1) 0
  cases hr : lng_tuning_loop hw (DLYB_CFGR_UNIT_MAX + 1) 0 with
  | mk o ev =>
    rw [hr] at h1 h2
    cases o with
    | none =>
      right
      obtain ⟨ha, hb⟩ := h2 rfl
      refine ⟨fun u hu => ha u (Nat.zero_le u) (by simp only [DLYB_CFGR_UNIT_MAX]; omega), ?_⟩
      simp only at hb
      rw [sdmmc_dlyb_lng_tuning, hr]
      simp only [hb, List.range_eq_range', DLYB_CFGR_UNIT_MAX]
    | some p =>
      left
      obtain ⟨u, L⟩ := p
      obtain ⟨_, hb, hc, hd, he, hf⟩ := h1 u L rfl
      refine ⟨u, by simp only [DLYB_CFGR_UNIT_MAX] at hb; omega, hc,
        fun v hv => he v (Nat.zero_le v) hv, ?_⟩
      simp only at hf
      rw [sdmmc_dlyb_lng_tuning, hr]
      simp only [hf, hd, List.range_eq_range', Nat.sub_zero]

theorem log2_512 : Nat.log2 512 = 9 := by
  have h1 : 9 ≤ Nat.log2 512 := (Nat.le_log2 (by decide)).2 (by decide)
  have h2 : Nat.log2 512 < 10 := (Nat.log2_lt (by decide)).2 (by decide)
  omega

/-! ## C5 -/

/-- C5: when `sdmmc_dlyb_lng_tuning` returns 0, the stored unit is the smallest
unit of 0..127 whose status poll succeeds with a measured length L, 0 < L <
2^11, and the stored max is floor(log2(L)): 2^max <= L < 2^(max+1), with unit
<= 127 and max <= 11 (in fact max <= 10).  With length 512 at unit 5 and a
timeout at every other unit the function returns 0 and stores unit 5, max 9. -/
theorem lng_tuning_stores_first_unit :
    (∀ (dlyb : sdmmc_dlyb) (hw : Nat → Int × Nat),
      (sdmmc_dlyb_lng_tuning dlyb hw).1 = 0 →
      (sdmmc_dlyb_lng_tuning dlyb hw).2.1.unit ≤ 127 ∧
      unit_accepted hw (sdmmc_dlyb_lng_tuning dlyb hw).2.1.unit ∧
      (∀ v, v < (sdmmc_dlyb_lng_tuning dlyb hw).2.1.unit → ¬ unit_accepted hw v) ∧
      (sdmmc_dlyb_lng_tuning dlyb hw).2.1.max =
        Nat.log2 (measured_length hw (sdmmc_dlyb_lng_tuning dlyb hw).2.1.unit) ∧
      2 ^ (sdmmc_dlyb_lng_tuning dlyb hw).2.1.max ≤
        measured_length hw (sdmmc_dlyb_lng_tuning dlyb hw).2.1.unit ∧
      measured_length hw (sdmmc_dlyb_lng_tuning dlyb hw).2.1.unit <
        2 ^ ((sdmmc_dlyb_lng_tuning dlyb hw).2.1.max + 1) ∧
      (sdmmc_dlyb_lng_tuning dlyb hw).2.1.max ≤ 11 ∧
      (sdmmc_dlyb_lng_tuning dlyb hw).2.1.max ≤ 10) ∧
    (∀ (dlyb : sdmmc_dlyb),
      (sdmmc_dlyb_lng_tuning dlyb hw_512_at_unit_5).1 = 0 ∧
      (sdmmc_dlyb_lng_tuning dlyb hw_512_at_unit_5).2.1.unit = 5 ∧
      (sdmmc_dlyb_lng_tuning dlyb hw_512_at_unit_5).2.1.max = 9) := by
  have hE : (-EINVAL : Int) ≠ 0 := by decide
  constructor
  · intro dlyb hw hret
    rcases lng_tuning_result dlyb hw with ⟨u, hu, hacc, hfirst, heq⟩ | ⟨_, heq⟩
    · have hunit : (sdmmc_dlyb_lng_tuning dlyb hw).2.1.unit = u := by rw [heq]
      have hmax : (sdmmc_dlyb_lng_tuning dlyb hw).2.1.max =
          Nat.log2 (measured_length hw u) := by rw [heq]; rfl
      rw [hunit, hmax]
      have hL0 : measured_length hw u ≠ 0 := Nat.pos_iff_ne_zero.1 hacc.2.1
      have hlt : Nat.log2 (measured_length hw u) < 11 := (Nat.log2_lt hL0).2 hacc.2.2
      exact ⟨hu, hacc, hfirst, rfl, Nat.log2_self_le hL0, Nat.lt_log2_self, by omega, by omega⟩
    · rw [heq] at hret
      exact absurd hret hE
  · intro dlyb
    have h5 : unit_accepted hw_512_at_unit_5 5 := by decide
    have honly : ∀ u, unit_accepted hw_512_at_unit_5 u → u = 5 := by
      intro u hu
      by_contra hne
      have := hu.1
      simp [hw_512_at_unit_5, hne] at this
    have hL : measured_length hw_512_at_unit_5 5 = 512 := by decide
    rcases lng_tuning_result dlyb hw_512_at_unit_5 with ⟨u, _, hacc, _, heq⟩ | ⟨hnone, _⟩
    · have hu := honly u hacc
      subst hu
      have hunit : (sdmmc_dlyb_lng_tuning dlyb hw_512_at_unit_5).2.1.unit = 5 := by rw [heq]
      have hmax : (sdmmc_dlyb_lng_tuning dlyb hw_512_at_unit_5).2.1.max = 9 := by
        rw [heq]
        show __fls (measured_length hw_512_at_unit_5 5) = 9
        rw [hL]
        exact log2_512
      have hret : (sdmmc_dlyb_lng_tuning dlyb hw_512_at_unit_5).1 = 0 := by rw [heq]
      exact ⟨hret, hunit, hmax⟩
    · exact absurd h5 (hnone 5 (by decide))

/-- C5 at a concrete input: length 512 at unit 5, timeouts elsewhere. -/
theorem lng_tuning_stores_first_unit_witness :
    (sdmmc_dlyb_lng_tuning ⟨1, 0, 0⟩ hw_512_at_unit_5).1 = 0 ∧
    (sdmmc_dlyb_lng_tuning ⟨1, 0, 0⟩ hw_512_at_unit_5).2.1.unit = 5 ∧
    (sdmmc_dlyb_lng_tuning ⟨1, 0, 0⟩ hw_512_at_unit_5).2.1.max = 9 ∧
    unit_accepted hw_512_at_unit_5 (sdmmc_dlyb_lng_tuning ⟨1, 0, 0⟩ hw_512_at_unit_5).2.1.unit :=
  have h := lng_tuning_stores_first_unit.2 ⟨1, 0, 0⟩
  ⟨h.1, h.2.1, h.2.2,
    (lng_tuning_stores_first_unit.1 ⟨1, 0, 0⟩ hw_512_at_unit_5 h.1).2.1⟩

/-! ## C6 -/

/-- C6: `sdmmc_dlyb_lng_tuning` returns `-EINVAL` exactly when no unit of
0..127 yields a successful status poll with a measured length L, 0 < L < 2^11;
otherwise it returns 0, so one accepted unit is enough whatever the other
units answer.  On failure the delay block state is unchanged and all 128 units
were tried in order. -/
theorem lng_tuning_fails_iff (dlyb : sdmmc_dlyb) (hw : Nat → Int × Nat) :
    ((sdmmc_dlyb_lng_tuning dlyb hw).1 = -EINVAL ↔ ∀ u, u ≤ 127 → ¬ unit_accepted hw u) ∧
    ((sdmmc_dlyb_lng_tuning dlyb hw).1 ≠ -EINVAL → (sdmmc_dlyb_lng_tuning dlyb hw).1 = 0) ∧
    (∀ u, u ≤ 127 → unit_accepted hw u → (sdmmc_dlyb_lng_tuning dlyb hw).1 = 0) ∧
    ((sdmmc_dlyb_lng_tuning dlyb hw).1 = -EINVAL →
      (sdmmc_dlyb_lng_tuning dlyb hw).2.1 = dlyb ∧
      (sdmmc_dlyb_lng_tuning dlyb hw).2.2 = (List.range 128).flatMap lng_events) := by
  have hE : (0 : Int) ≠ -EINVAL := by decide
  rcases lng_tuning_result dlyb hw with ⟨u, hu, hacc, _, heq⟩ | ⟨hnone, heq⟩
  · have hret : (sdmmc_dlyb_lng_tuning dlyb hw).1 = 0 := by rw [heq]
    rw [hret]
    exact ⟨⟨fun h => absurd h hE, fun h => absurd hacc (h u hu)⟩, fun _ => rfl,
      fun _ _ _ => rfl, fun h => absurd h hE⟩
  · have hret : (sdmmc_dlyb_lng_tuning dlyb hw).1 = -EINVAL := by rw [heq]
    have hst : (sdmmc_dlyb_lng_tuning dlyb hw).2.1 = dlyb := by rw [heq]
    have hev : (sdmmc_dlyb_lng_tuning dlyb hw).2.2 = (List.range 128).flatMap lng_events := by
      rw [heq]
    rw [hret]
    exact ⟨⟨fun _ => hnone, fun _ => rfl⟩, fun h => absurd rfl h,
      fun v hv hacc => absurd hacc (hnone v hv), fun _ => ⟨hst, hev⟩⟩

/-- C6 at a concrete input: every unit times out; the state keeps unit 7, max 3. -/
theorem lng_tuning_fails_iff_witness :
    (sdmmc_dlyb_lng_tuning ⟨1, 7, 3⟩ hw_all_timeout).1 = -EINVAL ∧
    (sdmmc_dlyb_lng_tuning ⟨1, 7, 3⟩ hw_all_timeout).2.1 = ⟨1, 7, 3⟩ := by
  have hall : ∀ u, u ≤ 127 → ¬ unit_accepted hw_all_timeout u := by
    intro u _ h
    have := h.1
    simp [hw_all_timeout] at this
  have h := lng_tuning_fails_iff ⟨1, 7, 3⟩ hw_all_timeout
  have hret := h.1.2 hall
  exact ⟨hret, (h.2.2.2 hret).1⟩

/-! ## Clock divider -/


/-- On the unwrapped quotient `(n + d - 1) / d` of `DIV_ROUND_UP`: it is the
ceiling of `n / d`. -/
theorem div_round_up_is_ceil (n d : Nat) (hd : 0 < d) : is_ceil_div n d ((n + d - 1) / d) := by
  constructor
  · have h1 := Nat.div_add_mod (n + d - 1) d
    have h2 := Nat.mod_lt (n + d - 1) hd
    rw [Nat.mul_comm] at h1
    generalize (n + d - 1) / d * d = x at h1 ⊢
    omega
  · intro k hk
    apply Nat.le_of_lt_succ
    rw [Nat.div_lt_iff_lt_mul hd, Nat.succ_mul]
    omega

theorem clkreg_ddr_of_disabled (K : mmci_h) (host : mmci_host) (h : ¬ ddr_enabled K host) :
    clkreg_ddr K host = 0 := by
  unfold ddr_enabled at h
  simp [clkreg_ddr, h]

theorem clkreg_ddr_of_enabled (K : mmci_h) (host : mmci_host) (h : ddr_enabled K host) :
    clkreg_ddr K host = K.MCI_STM32_CLK_DDR := by
  unfold ddr_enabled at h
  simp [clkreg_ddr, h]

/-- The divider branch when nothing wraps and the source clock runs: the
divider is the clamped ceiling, it is at least 1, and `cclk` is the quotient. -/
theorem clkreg_div_branch_exact (K : mmci_h) (host : mmci_host) (desired : Nat)
    (hd : 0 < desired) (hm : 1 ≤ host.mclk) (hwrap : host.mclk + 2 * desired ≤ 2 ^ 32)
    (hK1 : 1 ≤ K.MCI_STM32_CLK_CLKDIV_MSK) (hK2 : K.MCI_STM32_CLK_CLKDIV_MSK < 2 ^ 31) :
    ∃ q, is_ceil_div host.mclk (2 * desired) q ∧
      1 ≤ min q K.MCI_STM32_CLK_CLKDIV_MSK ∧
      clkreg_div_branch K host desired =
        some (min q K.MCI_STM32_CLK_CLKDIV_MSK,
          host.mclk / (2 * min q K.MCI_STM32_CLK_CLKDIV_MSK)) := by
  have hD : 0 < 2 * desired := by omega
  have hceil := div_round_up_is_ceil host.mclk (2 * desired) hD
  have e1 : u32 (2 * desired) = 2 * desired := u32_of_lt (by omega)
  have e2 : u32 (host.mclk + 2 * desired - 1) = host.mclk + 2 * desired - 1 :=
    u32_of_lt (by omega)
  have hDne : 2 * desired ≠ 0 := by omega
  have hbr : clkreg_div_branch K host desired =
      match udiv host.mclk (u32 (2 *
        (if (host.mclk + 2 * desired - 1) / (2 * desired) > K.MCI_STM32_CLK_CLKDIV_MSK
          then K.MCI_STM32_CLK_CLKDIV_MSK
          else (host.mclk + 2 * desired - 1) / (2 * desired)))) with
      | none => none
      | some cclk =>
        some (if (host.mclk + 2 * desired - 1) / (2 * desired) > K.MCI_STM32_CLK_CLKDIV_MSK
          then K.MCI_STM32_CLK_CLKDIV_MSK
          else (host.mclk + 2 * desired - 1) / (2 * desired), cclk) := by
    simp only [clkreg_div_branch, DIV_ROUND_UP, e1, e2, hDne, if_false]
  rw [hbr]
  generalize (host.mclk + 2 * desired - 1) / (2 * desired) = q at hceil ⊢
  have hq : q ≠ 0 := by
    intro h0
    have := hceil.1
    rw [h0] at this
    omega
  have hmin : (if q > K.MCI_STM32_CLK_CLKDIV_MSK then K.MCI_STM32_CLK_CLKDIV_MSK else q) =
      min q K.MCI_STM32_CLK_CLKDIV_MSK := by
    split_ifs with h
    · exact (Nat.min_eq_right (Nat.le_of_lt h)).symm
    · exact (Nat.min_eq_left (Nat.le_of_not_gt h)).symm
  rw [hmin]
  have hle : min q K.MCI_STM32_CLK_CLKDIV_MSK ≤ K.MCI_STM32_CLK_CLKDIV_MSK :=
    Nat.min_le_right _ _
  have hpos : 1 ≤ min q K.MCI_STM32_CLK_CLKDIV_MSK := by
    rw [Nat.le_min]
    exact ⟨Nat.pos_of_ne_zero hq, hK1⟩
  refine ⟨q, hceil, hpos, ?_⟩
  generalize min q K.MCI_STM32_CLK_CLKDIV_MSK = c at hle hpos ⊢
  have e3 : u32 (2 * c) = 2 * c := u32_of_lt (by omega)
  have hne : 2 * c ≠ 0 := by omega
  simp only [udiv, e3, hne, if_false]

/-- `mmci_sdmmc_set_clkreg` in terms of the divider statement. -/
theorem set_clkreg_of_divider (K : mmci_h) (host : mmci_host) (desired clk cclk : Nat)
    (h : clkreg_divider K host desired = some (clk, cclk)) :
    mmci_sdmmc_set_clkreg K host desired =
      some ({ host with
              cclk := cclk
              actual_clock := if host.ios.power_mode = K.MMC_POWER_ON then cclk else 0 },
            [Event.mmci_write_clkreg (u32 (clkreg_flags K host clk))]) := by
  simp only [mmci_sdmmc_set_clkreg, h]

/-! ## C8 -/

/-- C8, as stated, fails where the unsigned computation divides by zero.  In
each case the request is non-zero and the divider branch is taken.  With a
stopped source clock in DDR mode the divider is 0 and `mclk / (2 * 0)` is
evaluated; with `desired = 2^31` the product `2 * desired` wraps to 0 and
`DIV_ROUND_UP` divides by it; with `mclk = 4e9` and `desired = 3e9` the wrapped
quotient is 0 again. -/
theorem clkreg_divider_division_by_zero :
    (ddr_enabled stm32_mmci_h sample_host_ddr_mclk0 ∧
      mmci_sdmmc_set_clkreg stm32_mmci_h sample_host_ddr_mclk0 1 = none) ∧
    (ddr_enabled stm32_mmci_h sample_host_ddr ∧
      mmci_sdmmc_set_clkreg stm32_mmci_h sample_host_ddr (2 ^ 31) = none) ∧
    (¬ (3000000000 ≥ sample_host_4ghz.mclk) ∧
      mmci_sdmmc_set_clkreg stm32_mmci_h sample_host_4ghz 3000000000 = none) := by
  decide

/-- C8, amended: for desired > 0 and mclk >= 1 with mclk + 2*desired <= 2^32
(nothing wraps in unsigned 32-bit arithmetic), outside the bypass case,
`mmci_sdmmc_set_clkreg` computes divider = min(ceil(mclk / (2*desired)),
MAX_DIVIDER), which is at least 1, and sets cclk = floor(mclk / (2*divider)).
The constants are a DDR flag that is not 0 and a maximum divider in 1..2^31-1. -/
theorem clkreg_divider_ceiling (K : mmci_h) (host : mmci_host) (desired : Nat)
    (hd : 0 < desired) (hm : 1 ≤ host.mclk) (hwrap : host.mclk + 2 * desired ≤ 2 ^ 32)
    (hnb : ¬ (desired ≥ host.mclk ∧ ¬ ddr_enabled K host))
    (hDDR : K.MCI_STM32_CLK_DDR ≠ 0)
    (hK1 : 1 ≤ K.MCI_STM32_CLK_CLKDIV_MSK) (hK2 : K.MCI_STM32_CLK_CLKDIV_MSK < 2 ^ 31) :
    ∃ q, is_ceil_div host.mclk (2 * desired) q ∧
      1 ≤ min q K.MCI_STM32_CLK_CLKDIV_MSK ∧
      clkreg_divider K host desired =
        some (min q K.MCI_STM32_CLK_CLKDIV_MSK,
          host.mclk / (2 * min q K.MCI_STM32_CLK_CLKDIV_MSK)) ∧
      mmci_sdmmc_set_clkreg K host desired =
        some ({ host with
                cclk := host.mclk / (2 * min q K.MCI_STM32_CLK_CLKDIV_MSK)
                actual_clock := if host.ios.power_mode = K.MMC_POWER_ON then
                  host.mclk / (2 * min q K.MCI_STM32_CLK_CLKDIV_MSK) else 0 },
              [Event.mmci_write_clkreg
                (u32 (clkreg_flags K host (min q K.MCI_STM32_CLK_CLKDIV_MSK)))]) := by
  obtain ⟨q, hq, hpos, hbr⟩ := clkreg_div_branch_exact K host desired hd hm hwrap hK1 hK2
  have hcond : ¬ (desired ≥ host.mclk ∧ clkreg_ddr K host = 0) := by
    rintro ⟨h1, h2⟩
    apply hnb
    refine ⟨h1, fun hen => ?_⟩
    rw [clkreg_ddr_of_enabled K host hen] at h2
    exact hDDR h2
  have hdiv : clkreg_divider K host desired =
      some (min q K.MCI_STM32_CLK_CLKDIV_MSK,
        host.mclk / (2 * min q K.MCI_STM32_CLK_CLKDIV_MSK)) := by
    have hd0 : desired ≠ 0 := by omega
    simp only [clkreg_divider, hd0, ne_eq, not_false_eq_true, if_true, hcond, if_false, hbr]
  exact ⟨q, hq, hpos, hdiv, set_clkreg_of_divider K host desired _ _ hdiv⟩

/-- C8 amended, at a concrete input: 48 MHz source clock, 400 kHz requested. -/
theorem clkreg_divider_ceiling_witness :
    ∃ q, is_ceil_div 48000000 (2 * 400000) q ∧ 1 ≤ min q 1023 ∧
      clkreg_divider stm32_mmci_h sample_host 400000 =
        some (min q 1023, 48000000 / (2 * min q 1023)) := by
  obtain ⟨q, h1, h2, h3, _⟩ := clkreg_divider_ceiling stm32_mmci_h sample_host 400000
    (by decide) (by decide) (by decide) (by decide) (by decide) (by decide) (by decide)
  exact ⟨q, h1, h2, h3⟩

/-! ## C9 -/

/-- C9: with `desired = 0`, for every source clock and either DDR setting,
`mmci_sdmmc_set_clkreg` uses the maximum divider and sets cclk =
floor(mclk / (2*MAX_DIVIDER)); for mclk = 48,000,000 this clock is not 0.  The
maximum divider is a constant in 1..2^31-1, and at most 24,000,000 for the
second part. -/
theorem clkreg_desired_zero :
    (∀ (K : mmci_h) (host : mmci_host),
      1 ≤ K.MCI_STM32_CLK_CLKDIV_MSK → K.MCI_STM32_CLK_CLKDIV_MSK < 2 ^ 31 →
      clkreg_divider K host 0 =
        some (K.MCI_STM32_CLK_CLKDIV_MSK, host.mclk / (2 * K.MCI_STM32_CLK_CLKDIV_MSK)) ∧
      mmci_sdmmc_set_clkreg K host 0 =
        some ({ host with
                cclk := host.mclk / (2 * K.MCI_STM32_CLK_CLKDIV_MSK)
                actual_clock := if host.ios.power_mode = K.MMC_POWER_ON then
                  host.mclk / (2 * K.MCI_STM32_CLK_CLKDIV_MSK) else 0 },
              [Event.mmci_write_clkreg
                (u32 (clkreg_flags K host K.MCI_STM32_CLK_CLKDIV_MSK))])) ∧
    (∀ (K : mmci_h) (host : mmci_host),
      1 ≤ K.MCI_STM32_CLK_CLKDIV_MSK → 2 * K.MCI_STM32_CLK_CLKDIV_MSK ≤ 48000000 →
      host.mclk = 48000000 →
      ∃ host2 ev, mmci_sdmmc_set_clkreg K host 0 = some (host2, ev) ∧
        host2.cclk = 48000000 / (2 * K.MCI_STM32_CLK_CLKDIV_MSK) ∧ host2.cclk ≠ 0) := by
  have general : ∀ (K : mmci_h) (host : mmci_host),
      1 ≤ K.MCI_STM32_CLK_CLKDIV_MSK → K.MCI_STM32_CLK_CLKDIV_MSK < 2 ^ 31 →
      clkreg_divider K host 0 =
        some (K.MCI_STM32_CLK_CLKDIV_MSK, host.mclk / (2 * K.MCI_STM32_CLK_CLKDIV_MSK)) := by
    intro K host h1 h2
    have e : u32 (2 * K.MCI_STM32_CLK_CLKDIV_MSK) = 2 * K.MCI_STM32_CLK_CLKDIV_MSK :=
      u32_of_lt (by omega)
    have hne : 2 * K.MCI_STM32_CLK_CLKDIV_MSK ≠ 0 := by omega
    simp [clkreg_divider, udiv, e, hne]
  constructor
  · intro K host h1 h2
    exact ⟨general K host h1 h2, set_clkreg_of_divider K host 0 _ _ (general K host h1 h2)⟩
  · intro K host h1 h2 hm
    have hdiv := general K host h1 (by omega)
    refine ⟨_, _, set_clkreg_of_divider K host 0 _ _ hdiv, by simp only [hm], ?_⟩
    simp only [hm]
    intro h0
    have := Nat.div_eq_zero_iff (by omega : 0 < 2 * K.MCI_STM32_CLK_CLKDIV_MSK) |>.1 h0
    omega

/-- C9 at a concrete input: the sample host at 48 MHz, maximum divider 1023. -/
theorem clkreg_desired_zero_witness :
    clkreg_divider stm32_mmci_h sample_host 0 = some (1023, 23460) ∧
    ∃ host2 ev, mmci_sdmmc_set_clkreg stm32_mmci_h sample_host 0 = some (host2, ev) ∧
      host2.cclk = 23460 ∧ host2.cclk ≠ 0 := by
  have h1 := (clkreg_desired_zero.1 stm32_mmci_h sample_host (by decide) (by decide)).1
  obtain ⟨host2, ev, h2, h3, h4⟩ :=
    clkreg_desired_zero.2 stm32_mmci_h sample_host (by decide) (by decide) rfl
  exact ⟨h1, host2, ev, h2, h3, h4⟩

/-! ## Register fields -/

theorem mask_or {a b m : Nat} (ha : a &&& m = 0) (hb : b &&& m = 0) : (a ||| b) &&& m = 0 := by
  apply Nat.eq_of_testBit_eq
  intro i
  have h1 : (a.testBit i && m.testBit i) = false := by
    rw [← Nat.testBit_and, ha, Nat.zero_testBit]
  have h2 : (b.testBit i && m.testBit i) = false := by
    rw [← Nat.testBit_and, hb, Nat.zero_testBit]
  simp only [Nat.testBit_and, Nat.testBit_or, Nat.zero_testBit]
  cases hai : a.testBit i <;> cases hbi : b.testBit i <;> cases hmi : m.testBit i <;> simp_all

theorem mask_and_left {a m : Nat} (c : Nat) (ha : a &&& m = 0) : (a &&& c) &&& m = 0 := by
  apply Nat.eq_of_testBit_eq
  intro i
  have h1 : (a.testBit i && m.testBit i) = false := by
    rw [← Nat.testBit_and, ha, Nat.zero_testBit]
  simp only [Nat.testBit_and, Nat.zero_testBit]
  cases hai : a.testBit i <;> cases hci : c.testBit i <;> cases hmi : m.testBit i <;> simp_all

theorem mask_u32 {a m : Nat} (ha : a &&& m = 0) : u32 a &&& m = 0 := by
  apply Nat.eq_of_testBit_eq
  intro i
  have h1 : (a.testBit i && m.testBit i) = false := by
    rw [← Nat.testBit_and, ha, Nat.zero_testBit]
  simp only [u32, Nat.testBit_and, Nat.testBit_mod_two_pow, Nat.zero_testBit]
  cases hai : a.testBit i <;> cases hmi : m.testBit i <;> simp_all

/-- The flags added to the clock register leave the divider field alone when
none of them overlaps it. -/
theorem clkreg_flags_keep_divider_clear (K : mmci_h) (host : mmci_host)
    (hddr : clkreg_ddr K host = 0)
    (hfld : ∀ f ∈ [K.MCI_STM32_CLK_WIDEBUS_4, K.MCI_STM32_CLK_WIDEBUS_8,
      K.MCI_STM32_CLK_HWFCEN, host.clk_reg_add, K.MCI_STM32_CLK_BUSSPEED,
      K.MCI_STM32_CLK_SELFBCK], f &&& K.MCI_STM32_CLK_CLKDIV_MSK = 0) :
    u32 (clkreg_flags K host 0) &&& K.MCI_STM32_CLK_CLKDIV_MSK = 0 := by
  have h4 := hfld K.MCI_STM32_CLK_WIDEBUS_4 (by simp)
  have h8 := hfld K.MCI_STM32_CLK_WIDEBUS_8 (by simp)
  have hh := hfld K.MCI_STM32_CLK_HWFCEN (by simp)
  have ha := hfld host.clk_reg_add (by simp)
  have hb := hfld K.MCI_STM32_CLK_BUSSPEED (by simp)
  have hs := hfld K.MCI_STM32_CLK_SELFBCK (by simp)
  have h0 : (0 : Nat) &&& K.MCI_STM32_CLK_CLKDIV_MSK = 0 := Nat.zero_and _
  apply mask_u32
  simp only [clkreg_flags, hddr]
  split_ifs <;> repeat (first | assumption | apply mask_or | apply mask_and_left)

/-! ## C10 -/

/-- C10: for desired > 0 with desired >= mclk and DDR disabled,
`mmci_sdmmc_set_clkreg` bypasses the divider: the local divider is 0, cclk =
mclk, and the value written to the clock register has a divider field of 0
whenever none of the flags OR-ed into it overlaps that field.  When DDR is
enabled (the DDR flag being a non-zero constant) and desired > 0 the divider
branch is taken instead, and a divider it yields is never 0. -/
theorem clkreg_bypass :
    (∀ (K : mmci_h) (host : mmci_host) (desired : Nat),
      0 < desired → desired ≥ host.mclk → ¬ ddr_enabled K host →
      clkreg_divider K host desired = some (0, host.mclk) ∧
      mmci_sdmmc_set_clkreg K host desired =
        some ({ host with
                cclk := host.mclk
                actual_clock := if host.ios.power_mode = K.MMC_POWER_ON then host.mclk else 0 },
              [Event.mmci_write_clkreg (u32 (clkreg_flags K host 0))]) ∧
      ((∀ f ∈ [K.MCI_STM32_CLK_WIDEBUS_4, K.MCI_STM32_CLK_WIDEBUS_8,
          K.MCI_STM32_CLK_HWFCEN, host.clk_reg_add, K.MCI_STM32_CLK_BUSSPEED,
          K.MCI_STM32_CLK_SELFBCK], f &&& K.MCI_STM32_CLK_CLKDIV_MSK = 0) →
        u32 (clkreg_flags K host 0) &&& K.MCI_STM32_CLK_CLKDIV_MSK = 0)) ∧
    (∀ (K : mmci_h) (host : mmci_host) (desired : Nat),
      0 < desired → ddr_enabled K host → K.MCI_STM32_CLK_DDR ≠ 0 →
      clkreg_divider K host desired = clkreg_div_branch K host desired ∧
      ∀ clk cclk, clkreg_divider K host desired = some (clk, cclk) → clk ≠ 0) := by
  constructor
  · intro K host desired hd hge hddr
    have h0 := clkreg_ddr_of_disabled K host hddr
    have hd0 : desired ≠ 0 := by omega
    have hdiv : clkreg_divider K host desired = some (0, host.mclk) := by
      simp [clkreg_divider, hd0, hge, h0]
    exact ⟨hdiv, set_clkreg_of_divider K host desired _ _ hdiv,
      clkreg_flags_keep_divider_clear K host h0⟩
  · intro K host desired hd hen hDDR
    have hne : clkreg_ddr K host ≠ 0 := by
      rw [clkreg_ddr_of_enabled K host hen]
      exact hDDR
    have hd0 : desired ≠ 0 := by omega
    have hdiv : clkreg_divider K host desired = clkreg_div_branch K host desired := by
      simp [clkreg_divider, hd0, hne]
    refine ⟨hdiv, ?_⟩
    intro clk cclk h hz
    rw [hdiv] at h
    subst hz
    simp only [clkreg_div_branch] at h
    split at h
    · exact absurd h (by simp)
    · rename_i q hq
      split at h
      · exact absurd h (by simp)
      · rename_i c hc
        simp only [Option.some.injEq, Prod.mk.injEq] at h
        rw [h.1] at hc
        simp [udiv, u32] at hc

/-- C10 at a concrete input: 50 MHz requested from a 48 MHz source clock. -/
theorem clkreg_bypass_witness :
    clkreg_divider stm32_mmci_h sample_host 50000000 = some (0, 48000000) ∧
    mmci_sdmmc_set_clkreg stm32_mmci_h sample_host 50000000 =
      some ({ sample_host with cclk := 48000000, actual_clock := 48000000 },
        [Event.mmci_write_clkreg (BIT 14 ||| BIT 17)]) ∧
    (BIT 14 ||| BIT 17) &&& GENMASK 9 0 = 0 ∧
    clkreg_divider stm32_mmci_h sample_host_ddr 50000000 = some (1, 24000000) := by
  obtain ⟨h1, h2, h3⟩ := clkreg_bypass.1 stm32_mmci_h sample_host 50000000
    (by decide) (by decide) (by decide)
  have h4 := (clkreg_bypass.2 stm32_mmci_h sample_host_ddr 50000000
    (by decide) (by decide) (by decide)).1
  exact ⟨h1, h2, h3 (by decide), h4.trans (by decide)⟩

/-! ## What the validator computes -/

/-- The result of `sdmmc_idma_validate_data` is a function of the first
segment and of whether there are further segments: the entries after the first
are never read. -/
theorem validate_data_reads_first_only (K : mmci_h) (first : scatterlist)
    (rest : List scatterlist) (cookie : Int) :
    sdmmc_idma_validate_data K ⟨first :: rest, cookie⟩ =
      if first.offset % 4 = 0 ∧ (rest = [] ∨ first.length % SDMMC_IDMA_BURST K = 0)
      then some 0 else some (-EINVAL) := by
  cases rest with
  | nil =>
    by_cases ho : first.offset % 4 = 0
    · have h1 := (IS_ALIGNED_four first.offset).2 ho
      simp [sdmmc_idma_validate_data, mmc_data.sg_len, validate_loop, h1, ho]
    · have h1 : IS_ALIGNED first.offset sizeof_u32 = false := by
        rw [← Bool.not_eq_true, IS_ALIGNED_four]; exact ho
      simp [sdmmc_idma_validate_data, mmc_data.sg_len, validate_loop, h1, ho]
  | cons second rest =>
    by_cases ho : first.offset % 4 = 0
    · by_cases hl : first.length % SDMMC_IDMA_BURST K = 0
      · have h1 := (IS_ALIGNED_four first.offset).2 ho
        have hloop := validate_loop_first_ok K first ho hl (first :: second :: rest)
          ((first :: second :: rest).length - 1)
        simp only [sdmmc_idma_validate_data, mmc_data.sg_len, hloop, h1]
        simp [ho, hl]
      · have h2 : IS_ALIGNED first.length (SDMMC_IDMA_BURST K) = false := by
          rw [← Bool.not_eq_true, IS_ALIGNED_burst]; exact hl
        simp [sdmmc_idma_validate_data, mmc_data.sg_len, validate_loop, h2, ho, hl]
    · have h1 : IS_ALIGNED first.offset sizeof_u32 = false := by
        rw [← Bool.not_eq_true, IS_ALIGNED_four]; exact ho
      simp [sdmmc_idma_validate_data, mmc_data.sg_len, validate_loop, h1, ho]

/-! ## Start of a transfer: fast path and bounds -/

/-- The single-buffer path of `sdmmc_idma_start`: taken on a variant without
linked lists or for one segment, it returns 0, leaves the descriptor array as
it is and writes the base address and the enable register. -/
theorem idma_start_fast_path (K : mmci_h) (host : mmci_host) (idma : sdmmc_idma)
    (data : mmc_data) (sg0 : scatterlist) (rest : List scatterlist)
    (hpriv : host.dma_priv = some idma) (hdata : host.data = some data)
    (hsg : data.sg = sg0 :: rest)
    (hfast : host.variant.dma_lli = false ∨ data.sg_len = 1) :
    sdmmc_idma_start K host = some (0, idma.sg_cpu,
      [Event.writel_relaxed .host K.MMCI_STM32_IDMABASE0R (u32 sg0.dma_address),
       Event.writel_relaxed .host K.MMCI_STM32_IDMACTRLR (u32 K.MMCI_STM32_IDMAEN)]) := by
  have hc : (!host.variant.dma_lli || data.sg_len == 1) = true := by
    rcases hfast with h | h
    · simp [h]
    · simp [h]
  simp only [sdmmc_idma_start, hpriv, hdata, hc, if_true, hsg]

/-- The linked-list path of `sdmmc_idma_start` completes when the descriptor
array has room for every segment: no index falls outside the array. -/
theorem idma_start_in_bounds (K : mmci_h) (host : mmci_host) (idma : sdmmc_idma)
    (data : mmc_data)
    (hpriv : host.dma_priv = some idma) (hdata : host.data = some data)
    (h1 : 1 ≤ data.sg_len)
    (hroom : host.variant.dma_lli = false ∨ data.sg_len = 1 ∨
      data.sg_len ≤ idma.sg_cpu.length) :
    ∃ r, sdmmc_idma_start K host = some r := by
  have hN : data.sg.length = data.sg_len := rfl
  by_cases hfast : host.variant.dma_lli = false ∨ data.sg_len = 1
  · cases hsg : data.sg with
    | nil => rw [← hN, hsg] at h1; simp at h1
    | cons sg0 rest =>
      exact ⟨_, idma_start_fast_path K host idma data sg0 rest hpriv hdata hsg hfast⟩
  · have hlli : host.variant.dma_lli = true := by
      cases h : host.variant.dma_lli
      · exact absurd (Or.inl h) hfast
      · rfl
    have hne1 : data.sg_len ≠ 1 := fun h => hfast (Or.inr h)
    have hcap : data.sg_len ≤ idma.sg_cpu.length := by
      rcases hroom with h | h | h
      · rw [hlli] at h; exact absurd h (by decide)
      · exact absurd h hne1
      · exact h
    obtain ⟨out, hout, hlen, _, _⟩ :=
      idma_start_loop_spec K data.sg 0 idma.sg_cpu (by rw [hN]; omega)
    have hlt : data.sg_len - 1 < out.length := by rw [hlen]; omega
    have hc : (!host.variant.dma_lli || data.sg_len == 1) = false := by
      simp [hlli, hne1]
    have hne0 : data.sg_len ≠ 0 := by omega
    have hcl : clear_ula K out (data.sg_len - 1) =
        some (out.set (data.sg_len - 1)
          { out[data.sg_len - 1] with
            idmalar := out[data.sg_len - 1].idmalar &&& not32 K.MMCI_STM32_ULA }) := by
      simp [clear_ula, List.getElem?_eq_getElem hlt]
    have h0 : 0 < (out.set (data.sg_len - 1)
          { out[data.sg_len - 1] with
            idmalar := out[data.sg_len - 1].idmalar &&& not32 K.MMCI_STM32_ULA }).length := by
      rw [List.length_set]; omega
    simp only [sdmmc_idma_start, hpriv, hdata, hc, hout, hne0, hcl,
      List.getElem?_eq_getElem h0]
    exact ⟨_, rfl⟩

/-! ## C11 -/

/-- C11: for a transfer with exactly one segment, and for a transfer (with at
least one segment) on a variant without linked lists, `sdmmc_idma_start`
returns 0, leaves the descriptor array unchanged and performs exactly two
register writes: the device address of the first segment to the base-address
register and the enable value to the control register.  So every write goes to
one of the base-address, size and enable registers, none to the chain-base or
link register (register offsets being distinct), and the enable value does not
include the linked-list-enable flag (the two flags being disjoint). -/
theorem idma_start_single_buffer (K : mmci_h) (host : mmci_host) (idma : sdmmc_idma)
    (data : mmc_data)
    (hpriv : host.dma_priv = some idma) (hdata : host.data = some data)
    (hfast : (host.variant.dma_lli = false ∧ data.sg ≠ []) ∨ data.sg_len = 1)
    (hflags : K.MMCI_STM32_IDMAEN &&& K.MMCI_STM32_IDMALLIEN = 0)
    (hbar : K.MMCI_STM32_IDMABAR ∉
      [K.MMCI_STM32_IDMABASE0R, K.MMCI_STM32_IDMABSIZER, K.MMCI_STM32_IDMACTRLR])
    (hlar : K.MMCI_STM32_IDMALAR ∉
      [K.MMCI_STM32_IDMABASE0R, K.MMCI_STM32_IDMABSIZER, K.MMCI_STM32_IDMACTRLR]) :
    ∃ sg0 ev, data.sg[0]? = some sg0 ∧
      sdmmc_idma_start K host = some (0, idma.sg_cpu, ev) ∧
      ev = [Event.writel_relaxed .host K.MMCI_STM32_IDMABASE0R (u32 sg0.dma_address),
            Event.writel_relaxed .host K.MMCI_STM32_IDMACTRLR (u32 K.MMCI_STM32_IDMAEN)] ∧
      (∀ e ∈ ev, ∃ off val, e = Event.writel_relaxed .host off val ∧
        off ∈ [K.MMCI_STM32_IDMABASE0R, K.MMCI_STM32_IDMABSIZER, K.MMCI_STM32_IDMACTRLR] ∧
        off ≠ K.MMCI_STM32_IDMABAR ∧ off ≠ K.MMCI_STM32_IDMALAR) ∧
      u32 K.MMCI_STM32_IDMAEN &&& K.MMCI_STM32_IDMALLIEN = 0 := by
  have hne : data.sg ≠ [] := by
    rcases hfast with h | h
    · exact h.2
    · intro he
      have : data.sg_len = 0 := by simp [mmc_data.sg_len, he]
      omega
  cases hsg : data.sg with
  | nil => exact absurd hsg hne
  | cons sg0 rest =>
    have hf : host.variant.dma_lli = false ∨ data.sg_len = 1 := by
      rcases hfast with h | h
      · exact Or.inl h.1
      · exact Or.inr h
    refine ⟨sg0, _, by simp, idma_start_fast_path K host idma data sg0 rest hpriv hdata hsg hf,
      rfl, ?_, mask_u32 hflags⟩
    intro e he
    simp only [List.mem_cons, List.mem_singleton, List.not_mem_nil, or_false] at he
    rcases he with he | he
    · refine ⟨_, _, he, by simp, ?_, ?_⟩
      · intro h; apply hbar; rw [← h]; simp
      · intro h; apply hlar; rw [← h]; simp
    · refine ⟨_, _, he, by simp, ?_, ?_⟩
      · intro h; apply hbar; rw [← h]; simp
      · intro h; apply hlar; rw [← h]; simp

/-- C11 at a concrete input: the single-segment transfer on the sample host. -/
theorem idma_start_single_buffer_witness :
    ∃ ev, sdmmc_idma_start stm32_mmci_h sample_host_single =
        some (0, sample_idma.sg_cpu, ev) ∧
      ev = [Event.writel_relaxed .host 0x058 0x10000000,
            Event.writel_relaxed .host 0x050 1] := by
  obtain ⟨sg0, ev, h0, hstart, hev, _⟩ :=
    idma_start_single_buffer stm32_mmci_h sample_host_single sample_idma sample_data_single
      rfl rfl (Or.inr (by decide)) (by decide) (by decide) (by decide)
  have hsg : sg0 = ⟨0, 512, 0x10000000, 512⟩ := by
    have : sample_data_single.sg[0]? = some ⟨0, 512, 0x10000000, 512⟩ := by decide
    rw [this] at h0
    exact (Option.some.inj h0).symm
  subst hsg
  exact ⟨ev, hstart, hev.trans (by decide)⟩

/-! ## C12 -/

/-- C12: after a successful `sdmmc_idma_setup` the maximum segment count is
`SDMMC_LLI_BUF_LEN / 12` on a variant with linked lists and 1 on a variant
without.  For a transfer of N segments, 1 <= N <= that maximum, started on the
host the setup returned, `N * 12 <= SDMMC_LLI_BUF_LEN` (on a linked-list
variant), every descriptor index i < N ends inside the buffer, and
`sdmmc_idma_start` completes: no descriptor index falls outside the array. -/
theorem idma_setup_bounds_chain (K : mmci_h) (host : mmci_host) :
    (host.variant.dma_lli = true → ∀ (sg_dma : Nat) (data : mmc_data),
      (sdmmc_idma_setup K host true (some sg_dma)).1 = 0 ∧
      (sdmmc_idma_setup K host true (some sg_dma)).2.max_segs =
        SDMMC_LLI_BUF_LEN K / 12 ∧
      (1 ≤ data.sg_len →
        data.sg_len ≤ (sdmmc_idma_setup K host true (some sg_dma)).2.max_segs →
        data.sg_len * 12 ≤ SDMMC_LLI_BUF_LEN K ∧
        (∀ i, i < data.sg_len → (i + 1) * 12 ≤ SDMMC_LLI_BUF_LEN K) ∧
        ∃ r, sdmmc_idma_start K
          { (sdmmc_idma_setup K host true (some sg_dma)).2 with data := some data } =
            some r)) ∧
    (host.variant.dma_lli = false → ∀ (coherent : Option Nat) (data : mmc_data),
      (sdmmc_idma_setup K host true coherent).1 = 0 ∧
      (sdmmc_idma_setup K host true coherent).2.max_segs = 1 ∧
      (1 ≤ data.sg_len →
        data.sg_len ≤ (sdmmc_idma_setup K host true coherent).2.max_segs →
        ∃ r, sdmmc_idma_start K
          { (sdmmc_idma_setup K host true coherent).2 with data := some data } =
            some r ∧ r.2.1 = [])) := by
  constructor
  · intro hlli sg_dma data
    have hset : sdmmc_idma_setup K host true (some sg_dma) =
        (0, { host with
              dma_priv := some ⟨sg_dma,
                List.replicate (SDMMC_LLI_BUF_LEN K / sizeof_sdmmc_lli_desc) ⟨0, 0, 0⟩⟩
              max_segs := SDMMC_LLI_BUF_LEN K / sizeof_sdmmc_lli_desc
              max_seg_size := host.variant.stm32_idmabsize_mask }) := by
      simp [sdmmc_idma_setup, hlli]
    rw [hset]
    have hsz : sizeof_sdmmc_lli_desc = 12 := rfl
    refine ⟨rfl, by simp only [hsz], ?_⟩
    intro h1 hmax
    simp only [hsz] at hmax
    have hle : data.sg_len * 12 ≤ SDMMC_LLI_BUF_LEN K :=
      le_trans (Nat.mul_le_mul_right 12 hmax) (Nat.div_mul_le_self _ 12)
    refine ⟨hle, fun i hi => by omega, ?_⟩
    exact idma_start_in_bounds K _
      ⟨sg_dma, List.replicate (SDMMC_LLI_BUF_LEN K / sizeof_sdmmc_lli_desc) ⟨0, 0, 0⟩⟩ data
      rfl rfl h1 (Or.inr (Or.inr (by simp only [List.length_replicate, hsz]; exact hmax)))
  · intro hlli coherent data
    have hset : sdmmc_idma_setup K host true coherent =
        (0, { host with
              dma_priv := some ⟨0, []⟩
              max_segs := 1
              max_seg_size := host.max_req_size }) := by
      simp [sdmmc_idma_setup, hlli]
    rw [hset]
    refine ⟨rfl, rfl, ?_⟩
    intro h1 hmax
    simp only at hmax
    have hN : data.sg.length = data.sg_len := rfl
    cases hsg : data.sg with
    | nil => rw [← hN, hsg] at h1; simp at h1
    | cons sg0 rest =>
      exact ⟨_, idma_start_fast_path K _ ⟨0, []⟩ data sg0 rest rfl rfl hsg (Or.inl hlli), rfl⟩

/-- C12 at a concrete input: setup of the sample host with 4 KiB pages gives
341 segments at most, and the three-segment sample transfer starts. -/
theorem idma_setup_bounds_chain_witness :
    (sdmmc_idma_setup stm32_mmci_h sample_host true (some 0x20000000)).2.max_segs = 341 ∧
    3 * 12 ≤ SDMMC_LLI_BUF_LEN stm32_mmci_h ∧
    ∃ r, sdmmc_idma_start stm32_mmci_h
      { (sdmmc_idma_setup stm32_mmci_h sample_host true (some 0x20000000)).2 with
        data := some sample_data } = some r := by
  obtain ⟨_, h2, h3⟩ := (idma_setup_bounds_chain stm32_mmci_h sample_host).1 (by decide)
    0x20000000 sample_data
  obtain ⟨h4, _, h5⟩ := h3 (by decide) (by rw [h2]; decide)
  exact ⟨h2.trans (by decide), h4, h5⟩

/-! ## Power sequence -/

/-- The delay block bypass of `sdmmc_dlyb_input_ck` is nothing or one write of 0
to `DLYB_CR`. -/
theorem input_ck_cases (dlyb : Option sdmmc_dlyb) :
    sdmmc_dlyb_input_ck dlyb = [] ∨
    sdmmc_dlyb_input_ck dlyb = [Event.writel_relaxed .dlyb DLYB_CR 0] := by
  cases dlyb with
  | none => left; rfl
  | some d =>
    by_cases h : d.base = 0
    · left; simp [sdmmc_dlyb_input_ck, h]
    · right; simp [sdmmc_dlyb_input_ck, h]

/-! ## C13 -/

/-- C13: in power mode OFF every call of `mmci_sdmmc_set_pwrreg`, whatever its
argument, emits after the delay block bypass exactly these events in this
order: reset assert, a 2 microsecond delay, reset deassert, and one write of
the power register with the power-cycle encoding OR-ed with `pwr_reg_add`.  The
function reads the host state and does not change it, so this holds at every
invocation. -/
theorem set_pwrreg_power_off (K : mmci_h) (host : mmci_host) (pwr : Nat)
    (hoff : host.ios.power_mode = K.MMC_POWER_OFF) :
    mmci_sdmmc_set_pwrreg K host pwr =
      sdmmc_dlyb_input_ck host.variant_priv ++
        [Event.reset_control_assert, Event.udelay 2, Event.reset_control_deassert,
         Event.mmci_write_pwrreg (u32 (K.MCI_STM32_PWR_CYC ||| host.pwr_reg_add))] ∧
    (∀ n, (List.replicate n (mmci_sdmmc_set_pwrreg K host pwr)).flatten =
      (List.replicate n (sdmmc_dlyb_input_ck host.variant_priv ++
        [Event.reset_control_assert, Event.udelay 2, Event.reset_control_deassert,
         Event.mmci_write_pwrreg (u32 (K.MCI_STM32_PWR_CYC ||| host.pwr_reg_add))])).flatten) := by
  have h : mmci_sdmmc_set_pwrreg K host pwr =
      sdmmc_dlyb_input_ck host.variant_priv ++
        [Event.reset_control_assert, Event.udelay 2, Event.reset_control_deassert,
         Event.mmci_write_pwrreg (u32 (K.MCI_STM32_PWR_CYC ||| host.pwr_reg_add))] := by
    simp [mmci_sdmmc_set_pwrreg, hoff]
  exact ⟨h, fun n => by rw [h]⟩

/-- C13 at a concrete input: the sample host in power-off mode, called with
two different arguments. -/
theorem set_pwrreg_power_off_witness :
    mmci_sdmmc_set_pwrreg stm32_mmci_h sample_host_power_off 0 =
      [Event.writel_relaxed .dlyb 0 0, Event.reset_control_assert, Event.udelay 2,
       Event.reset_control_deassert, Event.mmci_write_pwrreg 2] ∧
    mmci_sdmmc_set_pwrreg stm32_mmci_h sample_host_power_off 3 =
      [Event.writel_relaxed .dlyb 0 0, Event.reset_control_assert, Event.udelay 2,
       Event.reset_control_deassert, Event.mmci_write_pwrreg 2] :=
  ⟨(set_pwrreg_power_off stm32_mmci_h sample_host_power_off 0 (by decide)).1.trans (by decide),
   (set_pwrreg_power_off stm32_mmci_h sample_host_power_off 3 (by decide)).1.trans (by decide)⟩

/-! ## C14 -/

/-- C14: in power mode ON (a mode constant distinct from OFF)
`mmci_sdmmc_set_pwrreg` emits after the delay block bypass exactly these events
in this order: the write of the base interrupt mask (`MCI_IRQENABLE |
start_err`) to `MMCIMASK0`, the power register write with the power-off
encoding, a 1 millisecond delay, the power register write with the power-on
encoding.  In every mode, when the power-on value differs from the power-off
and power-cycle values, a power register write with the power-on value is
immediately preceded by the 1 millisecond delay and that by the power-off
write. -/
theorem set_pwrreg_power_on :
    (∀ (K : mmci_h) (host : mmci_host) (pwr : Nat),
      host.ios.power_mode = K.MMC_POWER_ON → K.MMC_POWER_ON ≠ K.MMC_POWER_OFF →
      mmci_sdmmc_set_pwrreg K host pwr =
        sdmmc_dlyb_input_ck host.variant_priv ++
          [Event.writel .host K.MMCIMASK0 (u32 (K.MCI_IRQENABLE ||| host.variant.start_err)),
           Event.mmci_write_pwrreg (u32 (K.MCI_PWR_OFF ||| host.pwr_reg_add)),
           Event.mdelay 1,
           Event.mmci_write_pwrreg (u32 (K.MCI_PWR_ON ||| host.pwr_reg_add))]) ∧
    (∀ (K : mmci_h) (host : mmci_host) (pwr : Nat),
      u32 (K.MCI_PWR_OFF ||| host.pwr_reg_add) ≠ u32 (K.MCI_PWR_ON ||| host.pwr_reg_add) →
      u32 (K.MCI_STM32_PWR_CYC ||| host.pwr_reg_add) ≠
        u32 (K.MCI_PWR_ON ||| host.pwr_reg_add) →
      ∀ i, (mmci_sdmmc_set_pwrreg K host pwr)[i]? =
          some (Event.mmci_write_pwrreg (u32 (K.MCI_PWR_ON ||| host.pwr_reg_add))) →
        2 ≤ i ∧
        (mmci_sdmmc_set_pwrreg K host pwr)[i - 1]? = some (Event.mdelay 1) ∧
        (mmci_sdmmc_set_pwrreg K host pwr)[i - 2]? =
          some (Event.mmci_write_pwrreg (u32 (K.MCI_PWR_OFF ||| host.pwr_reg_add)))) := by
  constructor
  · intro K host pwr hon hne
    have hoff : host.ios.power_mode ≠ K.MMC_POWER_OFF := by rw [hon]; exact hne
    simp [mmci_sdmmc_set_pwrreg, hon, hne]
  · intro K host pwr hne1 hne2 i hi
    have hne1s := Ne.symm hne1
    have hne2s := Ne.symm hne2
    by_cases hoff : host.ios.power_mode = K.MMC_POWER_OFF
    · rcases input_ck_cases host.variant_priv with hck | hck
      · simp only [mmci_sdmmc_set_pwrreg, hck, hoff, if_true, List.nil_append] at hi ⊢
        rcases i with _ | _ | _ | _ | i <;> simp_all
      · simp only [mmci_sdmmc_set_pwrreg, hck, hoff, if_true, List.singleton_append] at hi ⊢
        rcases i with _ | _ | _ | _ | _ | i <;> simp_all
    · by_cases hon : host.ios.power_mode = K.MMC_POWER_ON
      · rcases input_ck_cases host.variant_priv with hck | hck
        · simp only [mmci_sdmmc_set_pwrreg, hck, hoff, hon, if_true, if_false,
            List.nil_append] at hi ⊢
          rcases i with _ | _ | _ | _ | i <;> simp_all
        · simp only [mmci_sdmmc_set_pwrreg, hck, hoff, hon, if_true, if_false,
            List.singleton_append] at hi ⊢
          rcases i with _ | _ | _ | _ | _ | i <;> simp_all
      · rcases input_ck_cases host.variant_priv with hck | hck
        · simp only [mmci_sdmmc_set_pwrreg, hck, hoff, hon, if_false, List.nil_append] at hi
          simp at hi
        · simp only [mmci_sdmmc_set_pwrreg, hck, hoff, hon, if_false,
            List.append_nil] at hi
          rcases i with _ | i <;> simp_all

/-- C14 at a concrete input: the sample host, which is in power-on mode. -/
theorem set_pwrreg_power_on_witness :
    mmci_sdmmc_set_pwrreg stm32_mmci_h sample_host 0 =
      [Event.writel_relaxed .dlyb 0 0, Event.writel .host 0x03c 0xff,
       Event.mmci_write_pwrreg 0, Event.mdelay 1, Event.mmci_write_pwrreg 3] ∧
    (mmci_sdmmc_set_pwrreg stm32_mmci_h sample_host 0)[4 - 1]? = some (Event.mdelay 1) := by
  have h1 := set_pwrreg_power_on.1 stm32_mmci_h sample_host 0 (by decide) (by decide)
  have h2 := set_pwrreg_power_on.2 stm32_mmci_h sample_host 0 (by decide) (by decide) 4
    (by decide)
  exact ⟨h1.trans (by decide), h2.2.1⟩

/-! ## C15 -/

/-- C15, as stated, fails when a delay block is present: in the intermediate
power-up mode, neither OFF nor ON, the sample host still receives the write of
0 to `DLYB_CR` that `sdmmc_dlyb_input_ck` makes before the mode is looked at. -/
theorem set_pwrreg_power_up_writes_dlyb :
    sample_host_power_up.ios.power_mode ≠ stm32_mmci_h.MMC_POWER_OFF ∧
    sample_host_power_up.ios.power_mode ≠ stm32_mmci_h.MMC_POWER_ON ∧
    mmci_sdmmc_set_pwrreg stm32_mmci_h sample_host_power_up 0 =
      [Event.writel_relaxed .dlyb DLYB_CR 0] ∧
    mmci_sdmmc_set_pwrreg stm32_mmci_h sample_host_power_up 0 ≠ [] := by
  decide

/-- C15, amended: in a power mode that is neither OFF nor ON
`mmci_sdmmc_set_pwrreg` writes no controller register, toggles no reset and
waits for nothing; all it does is the delay block bypass made on every call,
one write of 0 to `DLYB_CR` when a delay block is present, and nothing at all
when there is none. -/
theorem set_pwrreg_other_mode (K : mmci_h) (host : mmci_host) (pwr : Nat)
    (hoff : host.ios.power_mode ≠ K.MMC_POWER_OFF)
    (hon : host.ios.power_mode ≠ K.MMC_POWER_ON) :
    mmci_sdmmc_set_pwrreg K host pwr = sdmmc_dlyb_input_ck host.variant_priv ∧
    (∀ e ∈ mmci_sdmmc_set_pwrreg K host pwr, e = Event.writel_relaxed .dlyb DLYB_CR 0) ∧
    (mmci_sdmmc_set_pwrreg K host pwr).length ≤ 1 ∧
    (host.variant_priv = none → mmci_sdmmc_set_pwrreg K host pwr = []) ∧
    (∀ d, host.variant_priv = some d → d.base = 0 → mmci_sdmmc_set_pwrreg K host pwr = []) ∧
    (∀ d, host.variant_priv = some d → d.base ≠ 0 →
      mmci_sdmmc_set_pwrreg K host pwr = [Event.writel_relaxed .dlyb DLYB_CR 0]) := by
  have h : mmci_sdmmc_set_pwrreg K host pwr = sdmmc_dlyb_input_ck host.variant_priv := by
    simp [mmci_sdmmc_set_pwrreg, hoff, hon]
  rw [h]
  refine ⟨rfl, ?_, ?_, ?_, ?_, ?_⟩
  · intro e he
    rcases input_ck_cases host.variant_priv with hck | hck
    · rw [hck] at he; simp at he
    · rw [hck] at he; simpa using he
  · rcases input_ck_cases host.variant_priv with hck | hck <;> simp [hck]
  · intro hn; rw [hn]; rfl
  · intro d hd hb; rw [hd]; simp [sdmmc_dlyb_input_ck, hb]
  · intro d hd hb; rw [hd]; simp [sdmmc_dlyb_input_ck, hb]

/-- C15 amended, at a concrete input: the sample host in power-up mode. -/
theorem set_pwrreg_other_mode_witness :
    mmci_sdmmc_set_pwrreg stm32_mmci_h sample_host_power_up 0 =
      sdmmc_dlyb_input_ck sample_host_power_up.variant_priv ∧
    (mmci_sdmmc_set_pwrreg stm32_mmci_h sample_host_power_up 0).length ≤ 1 :=
  have h := set_pwrreg_other_mode stm32_mmci_h sample_host_power_up 0 (by decide) (by decide)
  ⟨h.1, h.2.2.1⟩

/-! ## C16 -/

/-- C16, as stated, fails: two successive calls of `sdmmc_idma_unprep_data` on
the sample transfer unmap its three segments twice; the second call performs
an unmap like the first. -/
theorem unprep_data_twice_unmaps_twice :
    sdmmc_idma_unprep_data sample_host sample_data 0 = [Event.dma_unmap_sg 3] ∧
    sdmmc_idma_unprep_data sample_host sample_data 0 ≠ [] ∧
    sdmmc_idma_unprep_data sample_host sample_data 0 ++
      sdmmc_idma_unprep_data sample_host sample_data 0 =
        [Event.dma_unmap_sg 3, Event.dma_unmap_sg 3] := by
  decide

/-- C16, amended: every call of `sdmmc_idma_unprep_data` performs exactly one
unmap of the `sg_len` segments of the transfer, whatever the error argument
and whatever was called before; two successive calls unmap twice.  Calling it
once per prepared transfer is left to the caller. -/
theorem unprep_data_unconditional (host : mmci_host) (data : mmc_data) (err err2 : Int) :
    sdmmc_idma_unprep_data host data err = [Event.dma_unmap_sg data.sg_len] ∧
    sdmmc_idma_unprep_data host data err ++ sdmmc_idma_unprep_data host data err2 =
      [Event.dma_unmap_sg data.sg_len, Event.dma_unmap_sg data.sg_len] ∧
    (sdmmc_idma_unprep_data host data err ++ sdmmc_idma_unprep_data host data err2).count
      (Event.dma_unmap_sg data.sg_len) = 2 := by
  simp [sdmmc_idma_unprep_data]

/-! ## C17 -/

/-- C17: `sdmmc_idma_prep_data` with `next = false` and a transfer cookie equal
to the host's next cookie returns 0 without calling `dma_map_sg`; in every
other case it calls `dma_map_sg` exactly once and returns `-EINVAL` exactly
when `dma_map_sg` returned 0, and 0 otherwise. -/
theorem prep_data_cases (host : mmci_host) (data : mmc_data) (next : Bool) (n_elem : Int) :
    (next = false → data.host_cookie = host.next_cookie →
      sdmmc_idma_prep_data host data next n_elem = (0, [])) ∧
    (¬ (next = false ∧ data.host_cookie = host.next_cookie) →
      (sdmmc_idma_prep_data host data next n_elem).2 = [Event.dma_map_sg data.sg_len] ∧
      ((sdmmc_idma_prep_data host data next n_elem).1 = -EINVAL ↔ n_elem = 0) ∧
      (n_elem ≠ 0 → (sdmmc_idma_prep_data host data next n_elem).1 = 0)) := by
  constructor
  · intro hn hc
    simp [sdmmc_idma_prep_data, hn, hc]
  · intro hnot
    have hcond : (!next && data.host_cookie == host.next_cookie) = false := by
      cases next
      · have : data.host_cookie ≠ host.next_cookie := fun h => hnot ⟨rfl, h⟩
        simp [this]
      · simp
    have hE : (-EINVAL : Int) ≠ 0 := by decide
    by_cases hz : n_elem = 0
    · simp [sdmmc_idma_prep_data, _sdmmc_idma_prep_data, hcond, hz]
    · simp [sdmmc_idma_prep_data, _sdmmc_idma_prep_data, hcond, hz, hE.symm]

/-- C17 at concrete inputs: the sample transfer (cookie 1) on the sample host
(next cookie 0), mapped with 3 and with 0 segments, and on a host whose next
cookie is 1. -/
theorem prep_data_cases_witness :
    sdmmc_idma_prep_data { sample_host with next_cookie := 1 } sample_data false 3 = (0, []) ∧
    sdmmc_idma_prep_data sample_host sample_data false 3 = (0, [Event.dma_map_sg 3]) ∧
    (sdmmc_idma_prep_data sample_host sample_data false 0).1 = -EINVAL ∧
    (sdmmc_idma_prep_data sample_host sample_data false 0).2 = [Event.dma_map_sg 3] := by
  have h1 := (prep_data_cases { sample_host with next_cookie := 1 } sample_data false 3).1
    rfl (by decide)
  have h2 := (prep_data_cases sample_host sample_data false 3).2 (by decide)
  have h3 := (prep_data_cases sample_host sample_data false 0).2 (by decide)
  refine ⟨h1, ?_, h3.2.1.2 rfl, h3.1⟩
  exact Prod.ext (h2.2.2 (by decide)) h2.1

/-! ## Chosen phase -/

/-- The sweep found a streak exactly when `sdmmc_dlyb_phase_tuning` returns 0,
and then the last programming of the delay block uses the chosen phase. -/
theorem phase_tuning_success (dlyb : sdmmc_dlyb) (opcode : Nat) (tune : Nat → Int) :
    ((sdmmc_dlyb_phase_tuning dlyb opcode tune).1 = 0 ↔
      (phase_sweep dlyb opcode tune).max_len ≠ 0) ∧
    ((phase_sweep dlyb opcode tune).max_len ≠ 0 →
      sdmmc_dlyb_phase_tuning dlyb opcode tune =
        (0, (List.range (dlyb.max + 1)).flatMap (sweep_events dlyb opcode) ++
          sdmmc_dlyb_set_cfgr dlyb.unit (chosen_phase dlyb opcode tune) false)) := by
  have htr : (phase_sweep dlyb opcode tune).trace =
      (List.range (dlyb.max + 1)).flatMap (sweep_events dlyb opcode) := by
    rw [phase_sweep_eq]
    exact (sweep_inv_upto dlyb opcode tune (dlyb.max + 1)).trace_eq
  have hE : (-EINVAL : Int) ≠ 0 := by decide
  constructor
  · by_cases h0 : (phase_sweep dlyb opcode tune).max_len = 0
    · simp [sdmmc_dlyb_phase_tuning, h0, hE]
    · simp [sdmmc_dlyb_phase_tuning, h0]
  · intro h0
    simp only [sdmmc_dlyb_phase_tuning, h0, if_false, htr, chosen_phase]

/-! ## C18 -/

/-- C18, as stated, fails for a streak of even length: with exactly the phases
3 and 4 succeeding the best streak is 3..4 (s = 3, e = 4), the sweep succeeds
and the phase programmed is p = 3, the earlier of the two middle phases, so
that p - s = 0 is less than e - p = 1. -/
theorem phase_tuning_even_streak_earlier_middle :
    longest_run tune_3_to_4 10 2 4 ∧
    chosen_phase ⟨1, 3, 10⟩ 19 tune_3_to_4 = 3 ∧
    sdmmc_dlyb_phase_tuning ⟨1, 3, 10⟩ 19 tune_3_to_4 =
      (0, (List.range 11).flatMap (sweep_events ⟨1, 3, 10⟩ 19) ++
        sdmmc_dlyb_set_cfgr 3 3 false) ∧
    ¬ ((chosen_phase ⟨1, 3, 10⟩ 19 tune_3_to_4 : Int) - 3 ≥
      4 - (chosen_phase ⟨1, 3, 10⟩ 19 tune_3_to_4 : Int)) := by
  have hlen : (phase_sweep ⟨1, 3, 10⟩ 19 tune_3_to_4).max_len = 2 := by decide
  have hend : (phase_sweep ⟨1, 3, 10⟩ 19 tune_3_to_4).end_of_len = 4 := by decide
  have hp : chosen_phase ⟨1, 3, 10⟩ 19 tune_3_to_4 = 3 := by decide
  have hrun := sweep_longest_run ⟨1, 3, 10⟩ 19 tune_3_to_4 (by rw [hlen]; decide)
  rw [hlen, hend] at hrun
  have hret := (phase_tuning_success ⟨1, 3, 10⟩ 19 tune_3_to_4).2 (by rw [hlen]; decide)
  rw [hp] at hret
  refine ⟨hrun, hp, hret, ?_⟩
  rw [hp]
  decide

/-- C18, amended: for every successful phase sweep `sdmmc_dlyb_phase_tuning`
returns 0 and the phase p of its last programming of the delay block is the
midpoint of the best streak biased toward the earlier half.  With e the last
phase of the streak, len its length and s = e - len + 1 its first phase:
s <= p <= e, p - s = (len - 1) / 2 and e - p = len / 2, hence e - p >= p - s
with a difference of at most 1; for an odd length p is the exact middle, for
an even length the earlier of the two middle phases. -/
theorem phase_tuning_midpoint_bias (dlyb : sdmmc_dlyb) (opcode : Nat) (tune : Nat → Int)
    (hok : (sdmmc_dlyb_phase_tuning dlyb opcode tune).1 = 0) :
    ∃ p, sdmmc_dlyb_phase_tuning dlyb opcode tune =
        (0, (List.range (dlyb.max + 1)).flatMap (sweep_events dlyb opcode) ++
          sdmmc_dlyb_set_cfgr dlyb.unit p false) ∧
      longest_run tune dlyb.max (phase_sweep dlyb opcode tune).max_len
        (phase_sweep dlyb opcode tune).end_of_len ∧
      (phase_sweep dlyb opcode tune).end_of_len + 1 -
        (phase_sweep dlyb opcode tune).max_len ≤ p ∧
      p ≤ (phase_sweep dlyb opcode tune).end_of_len ∧
      p - ((phase_sweep dlyb opcode tune).end_of_len + 1 -
          (phase_sweep dlyb opcode tune).max_len) =
        ((phase_sweep dlyb opcode tune).max_len - 1) / 2 ∧
      (phase_sweep dlyb opcode tune).end_of_len - p =
        (phase_sweep dlyb opcode tune).max_len / 2 ∧
      p - ((phase_sweep dlyb opcode tune).end_of_len + 1 -
          (phase_sweep dlyb opcode tune).max_len) ≤
        (phase_sweep dlyb opcode tune).end_of_len - p ∧
      (phase_sweep dlyb opcode tune).end_of_len - p ≤
        p - ((phase_sweep dlyb opcode tune).end_of_len + 1 -
          (phase_sweep dlyb opcode tune).max_len) + 1 ∧
      ((phase_sweep dlyb opcode tune).max_len % 2 = 1 →
        p - ((phase_sweep dlyb opcode tune).end_of_len + 1 -
            (phase_sweep dlyb opcode tune).max_len) =
          (phase_sweep dlyb opcode tune).end_of_len - p) ∧
      ((phase_sweep dlyb opcode tune).max_len % 2 = 0 →
        p - ((phase_sweep dlyb opcode tune).end_of_len + 1 -
            (phase_sweep dlyb opcode tune).max_len) + 1 =
          (phase_sweep dlyb opcode tune).end_of_len - p) := by
  have hne := (phase_tuning_success dlyb opcode tune).1.1 hok
  have htr : (phase_sweep dlyb opcode tune).trace =
      (List.range (dlyb.max + 1)).flatMap (sweep_events dlyb opcode) := by
    rw [phase_sweep_eq]
    exact (sweep_inv_upto dlyb opcode tune (dlyb.max + 1)).trace_eq
  have hret : sdmmc_dlyb_phase_tuning dlyb opcode tune =
      (0, (List.range (dlyb.max + 1)).flatMap (sweep_events dlyb opcode) ++
        sdmmc_dlyb_set_cfgr dlyb.unit
          ((phase_sweep dlyb opcode tune).end_of_len -
            (phase_sweep dlyb opcode tune).max_len / 2) false) := by
    simp only [sdmmc_dlyb_phase_tuning, hne, if_false, htr]
  have hrun := sweep_longest_run dlyb opcode tune hne
  have hp := hrun.1
  have hl := hrun.2.2.1
  refine ⟨(phase_sweep dlyb opcode tune).end_of_len -
    (phase_sweep dlyb opcode tune).max_len / 2, hret, hrun, ?_⟩
  clear hrun hret htr
  generalize (phase_sweep dlyb opcode tune).max_len = len at hp hl ⊢
  generalize (phase_sweep dlyb opcode tune).end_of_len = e at hl ⊢
  omega

/-- C18 amended, at concrete inputs with unit 3, max 10: the streak 3..4 of
even length, where the phase programmed last is 3, the earlier of the two
middle phases; and the streak 3..7 of odd length, where it is the middle 5. -/
theorem phase_tuning_midpoint_bias_witness :
    ((sdmmc_dlyb_phase_tuning ⟨1, 3, 10⟩ 19 tune_3_to_4).1 = 0 ∧
      sdmmc_dlyb_phase_tuning ⟨1, 3, 10⟩ 19 tune_3_to_4 =
        (0, (List.range 11).flatMap (sweep_events ⟨1, 3, 10⟩ 19) ++
          sdmmc_dlyb_set_cfgr 3 3 false)) ∧
    ((sdmmc_dlyb_phase_tuning ⟨1, 3, 10⟩ 19 tune_3_to_7).1 = 0 ∧
      sdmmc_dlyb_phase_tuning ⟨1, 3, 10⟩ 19 tune_3_to_7 =
        (0, (List.range 11).flatMap (sweep_events ⟨1, 3, 10⟩ 19) ++
          sdmmc_dlyb_set_cfgr 3 5 false)) := by
  have hok4 : (sdmmc_dlyb_phase_tuning ⟨1, 3, 10⟩ 19 tune_3_to_4).1 = 0 := by decide
  have hok7 : (sdmmc_dlyb_phase_tuning ⟨1, 3, 10⟩ 19 tune_3_to_7).1 = 0 := by decide
  have hl4 : (phase_sweep ⟨1, 3, 10⟩ 19 tune_3_to_4).max_len = 2 := by decide
  have he4 : (phase_sweep ⟨1, 3, 10⟩ 19 tune_3_to_4).end_of_len = 4 := by decide
  have hl7 : (phase_sweep ⟨1, 3, 10⟩ 19 tune_3_to_7).max_len = 5 := by decide
  have he7 : (phase_sweep ⟨1, 3, 10⟩ 19 tune_3_to_7).end_of_len = 7 := by decide
  obtain ⟨p4, hret4, _, _, _, _, hd4, _⟩ :=
    phase_tuning_midpoint_bias ⟨1, 3, 10⟩ 19 tune_3_to_4 hok4
  obtain ⟨p7, hret7, _, _, _, _, hd7, _⟩ :=
    phase_tuning_midpoint_bias ⟨1, 3, 10⟩ 19 tune_3_to_7 hok7
  rw [hl4, he4] at hd4
  rw [hl7, he7] at hd7
  have h4 : p4 = 3 := by omega
  have h7 : p7 = 5 := by omega
  subst h4
  subst h7
  exact ⟨⟨hok4, hret4⟩, ⟨hok7, hret7⟩⟩

/-! ## C19 -/

/-- C19: whenever `sdmmc_dlyb_phase_tuning` returns 0, the phase p it programs
last satisfies 0 <= p <= max (the subtraction `end_of_len - max_len / 2` does
not go below zero) and lies inside the best streak, `end_of_len - max_len + 1
<= p <= end_of_len`, so the tuning exchange succeeded at phase p during the
sweep; and the streak used is the earliest of those of maximal length: every
run of succeeding phases that ends before `end_of_len` is shorter. -/
theorem phase_tuning_phase_in_streak (dlyb : sdmmc_dlyb) (opcode : Nat) (tune : Nat → Int)
    (hok : (sdmmc_dlyb_phase_tuning dlyb opcode tune).1 = 0) :
    sdmmc_dlyb_phase_tuning dlyb opcode tune =
      (0, (List.range (dlyb.max + 1)).flatMap (sweep_events dlyb opcode) ++
        sdmmc_dlyb_set_cfgr dlyb.unit (chosen_phase dlyb opcode tune) false) ∧
    (phase_sweep dlyb opcode tune).max_len / 2 ≤ (phase_sweep dlyb opcode tune).end_of_len ∧
    chosen_phase dlyb opcode tune ≤ dlyb.max ∧
    (phase_sweep dlyb opcode tune).end_of_len + 1 - (phase_sweep dlyb opcode tune).max_len ≤
      chosen_phase dlyb opcode tune ∧
    chosen_phase dlyb opcode tune ≤ (phase_sweep dlyb opcode tune).end_of_len ∧
    tune (chosen_phase dlyb opcode tune) = 0 ∧
    longest_run tune dlyb.max (phase_sweep dlyb opcode tune).max_len
      (phase_sweep dlyb opcode tune).end_of_len ∧
    (∀ a b, a ≤ b → b < (phase_sweep dlyb opcode tune).end_of_len → run_ok tune a b →
      b - a + 1 < (phase_sweep dlyb opcode tune).max_len) := by
  have hne := (phase_tuning_success dlyb opcode tune).1.1 hok
  have hret := (phase_tuning_success dlyb opcode tune).2 hne
  have hrun := sweep_longest_run dlyb opcode tune hne
  have hp := hrun.1
  have he := hrun.2.1
  have hl := hrun.2.2.1
  have hrok := hrun.2.2.2.1
  have hlo : (phase_sweep dlyb opcode tune).end_of_len + 1 -
      (phase_sweep dlyb opcode tune).max_len ≤ chosen_phase dlyb opcode tune := by
    simp only [chosen_phase]; omega
  have hhi : chosen_phase dlyb opcode tune ≤ (phase_sweep dlyb opcode tune).end_of_len := by
    simp only [chosen_phase]; omega
  exact ⟨hret, by omega, by omega, hlo, hhi, hrok _ hlo hhi, hrun, hrun.2.2.2.2.2⟩

/-- C19 at a concrete input: the phases 3..7 succeeding, unit 3, max 10. -/
theorem phase_tuning_phase_in_streak_witness :
    (sdmmc_dlyb_phase_tuning ⟨1, 3, 10⟩ 19 tune_3_to_7).1 = 0 ∧
    chosen_phase ⟨1, 3, 10⟩ 19 tune_3_to_7 ≤ 10 ∧
    tune_3_to_7 (chosen_phase ⟨1, 3, 10⟩ 19 tune_3_to_7) = 0 := by
  have hok : (sdmmc_dlyb_phase_tuning ⟨1, 3, 10⟩ 19 tune_3_to_7).1 = 0 := by decide
  have h := phase_tuning_phase_in_streak ⟨1, 3, 10⟩ 19 tune_3_to_7 hok
  exact ⟨hok, h.2.2.1, h.2.2.2.2.2.1⟩

/-! ## C20 -/

/-- The ceiling of a quotient is determined by its specification. -/
theorem is_ceil_div_unique (n d q q2 : Nat) (h : is_ceil_div n d q)
    (h2 : is_ceil_div n d q2) : q = q2 :=
  Nat.le_antisymm (h.2 q2 h2.1) (h2.2 q h.1)

/-- C20: for mclk >= 1 and desired >= 1 with mclk + 2*desired < 2^32, the
statement that computes the clock of `mmci_sdmmc_set_clkreg` completes: in the
divider branch the divider is min(ceil(mclk / (2*desired)), MAX_DIVIDER) and
at least 1, so `mclk / (2 * divider)` does not divide by zero; and whenever
that ceiling does not exceed the maximum divider, or the bypass branch is
taken, the resulting cclk is at most `desired`.  The maximum divider is a
constant in 1..2^31-1. -/
theorem clkreg_divider_bounds (K : mmci_h) (host : mmci_host) (desired : Nat)
    (hm : 1 ≤ host.mclk) (hd : 1 ≤ desired) (hwrap : host.mclk + 2 * desired < 2 ^ 32)
    (hK1 : 1 ≤ K.MCI_STM32_CLK_CLKDIV_MSK) (hK2 : K.MCI_STM32_CLK_CLKDIV_MSK < 2 ^ 31) :
    ∃ q clk cclk, is_ceil_div host.mclk (2 * desired) q ∧
      clkreg_div_branch K host desired = some (min q K.MCI_STM32_CLK_CLKDIV_MSK,
        host.mclk / (2 * min q K.MCI_STM32_CLK_CLKDIV_MSK)) ∧
      1 ≤ min q K.MCI_STM32_CLK_CLKDIV_MSK ∧
      u32 (2 * min q K.MCI_STM32_CLK_CLKDIV_MSK) ≠ 0 ∧
      clkreg_divider K host desired = some (clk, cclk) ∧
      (¬ (desired ≥ host.mclk ∧ clkreg_ddr K host = 0) →
        clk = min q K.MCI_STM32_CLK_CLKDIV_MSK ∧ 1 ≤ clk ∧ cclk = host.mclk / (2 * clk)) ∧
      ((desired ≥ host.mclk ∧ clkreg_ddr K host = 0) → clk = 0 ∧ cclk = host.mclk) ∧
      (q ≤ K.MCI_STM32_CLK_CLKDIV_MSK ∨ (desired ≥ host.mclk ∧ clkreg_ddr K host = 0) →
        cclk ≤ desired) := by
  obtain ⟨q, hq, hpos, hbr⟩ :=
    clkreg_div_branch_exact K host desired hd hm (Nat.le_of_lt hwrap) hK1 hK2
  have hd0 : desired ≠ 0 := by omega
  have hle : min q K.MCI_STM32_CLK_CLKDIV_MSK ≤ K.MCI_STM32_CLK_CLKDIV_MSK :=
    Nat.min_le_right _ _
  have hu : u32 (2 * min q K.MCI_STM32_CLK_CLKDIV_MSK) ≠ 0 := by
    rw [u32_of_lt (by omega)]
    omega
  have hdiv : q ≤ K.MCI_STM32_CLK_CLKDIV_MSK →
      host.mclk / (2 * min q K.MCI_STM32_CLK_CLKDIV_MSK) ≤ desired := by
    intro hqle
    rw [Nat.min_eq_left hqle]
    apply Nat.div_le_of_le_mul
    have := hq.1
    calc host.mclk ≤ q * (2 * desired) := this
      _ = 2 * q * desired := by ring
  by_cases hby : desired ≥ host.mclk ∧ clkreg_ddr K host = 0
  · have hcd : clkreg_divider K host desired = some (0, host.mclk) := by
      simp only [clkreg_divider, hd0, ne_eq, not_false_eq_true, if_true, hby, and_self]
    exact ⟨q, 0, host.mclk, hq, hbr, hpos, hu, hcd, fun h => absurd hby h,
      fun _ => ⟨rfl, rfl⟩, fun _ => hby.1⟩
  · have hcd : clkreg_divider K host desired =
        some (min q K.MCI_STM32_CLK_CLKDIV_MSK,
          host.mclk / (2 * min q K.MCI_STM32_CLK_CLKDIV_MSK)) := by
      simp only [clkreg_divider, hd0, ne_eq, not_false_eq_true, if_true, hby, if_false, hbr]
    refine ⟨q, _, _, hq, hbr, hpos, hu, hcd, fun _ => ⟨rfl, hpos, rfl⟩,
      fun h => absurd h hby, ?_⟩
    rintro (h | h)
    · exact hdiv h
    · exact absurd h hby

/-- C20 at a concrete input: 48 MHz source clock, 400 kHz requested. -/
theorem clkreg_divider_bounds_witness :
    ∃ q clk cclk, is_ceil_div 48000000 (2 * 400000) q ∧
      clkreg_divider stm32_mmci_h sample_host 400000 = some (clk, cclk) ∧
      1 ≤ clk ∧ cclk ≤ 400000 := by
  obtain ⟨q, clk, cclk, h1, _, _, _, h5, h6, _, h8⟩ :=
    clkreg_divider_bounds stm32_mmci_h sample_host 400000
      (by decide) (by decide) (by decide) (by decide) (by decide)
  have h1n : is_ceil_div 48000000 (2 * 400000) q := h1
  have hq : q = 60 := is_ceil_div_unique 48000000 (2 * 400000) q 60 h1n
    ⟨by decide, fun k hk => by omega⟩
  refine ⟨q, clk, cclk, h1n, h5, (h6 (by decide)).2.1, h8 (Or.inl ?_)⟩
  rw [hq]
  decide

end Sdmmc
